/-
  Verification of the market-data ingestion-and-aggregation core:
  pagination, stream gating, wire parsing / normalization, and the three
  bar-construction algorithms (tick / volume / dollar).

  The definitions below are a shallow embedding of the Python sources:
    - src/data/normalizers/bars.py          (bar aggregators)
    - src/data/connectors/binance.py        (kline paginator, stream filter)
    - src/data/connectors/binance_futures.py (funding-rate paginator, parsers)
    - src/data/normalizers/binance.py       (wire -> canonical normalizer)
  Python `Decimal` values are modelled by `PyDecimal` (sign / digit-tuple /
  exponent, exactly as CPython stores them); `Decimal` arithmetic used by the
  aggregators is modelled by exact rationals.  Fallible Python code (KeyError,
  InvalidOperation) is modelled with `Option`.
-/
import Mathlib

namespace MarketData

/-! ## Python `Decimal` model

CPython's `Decimal` stores a sign, a tuple of base-10 digits (leading zeros
stripped, a single `0` for zero) and an integer exponent.  `parseDec` mirrors
the numeric-string grammar accepted by the `Decimal` constructor (finite
numbers; a conversion failure is `none`), and `strDec` mirrors
`Decimal.__str__` (the *to-scientific-string* algorithm of the decimal
specification). -/

structure PyDecimal where
  sign : Bool
  digits : List Nat
  exponent : Int
  deriving DecidableEq, Repr

/-- Digits are canonical: nonempty, each `< 10`, no leading zero unless the
coefficient is the single digit `0`. -/
def DigitsWF (ds : List Nat) : Prop :=
  ds ≠ [] ∧ (∀ d ∈ ds, d < 10) ∧ (ds.head? = some 0 → ds = [0])

def digitVal (c : Char) : Nat := c.toNat - '0'.toNat

def digitChar (d : Nat) : Char := Char.ofNat ('0'.toNat + d)

def splitSignChars : List Char → Bool × List Char
  | [] => (false, [])
  | c :: rest =>
    if c = '-' then (true, rest)
    else if c = '+' then (false, rest)
    else (false, c :: rest)

def spanDigits (cs : List Char) : List Char × List Char :=
  (cs.takeWhile Char.isDigit, cs.dropWhile Char.isDigit)

def natFromDigits (ds : List Nat) : Nat :=
  ds.foldl (fun a d => a * 10 + d) 0

/-- Strip leading zero digits from a coefficient; an all-zero coefficient
collapses to the single digit `0` (as CPython does). -/
def stripLeadingZeros (ds : List Nat) : List Nat :=
  match ds.dropWhile (· = 0) with
  | [] => [0]
  | l => l

/-- Parse the optional exponent marker (`e`/`E`, optional sign, digits) that
may terminate a numeric string; `some 0` when absent, `none` when malformed. -/
def parseExpPart : List Char → Option Int
  | [] => some 0
  | c :: rest =>
    if c = 'e' ∨ c = 'E' then
      let (es, rest1) := splitSignChars rest
      let (ed, rest2) := spanDigits rest1
      if ed.isEmpty ∨ ¬ rest2.isEmpty then none
      else some ((if es then -1 else 1) * (natFromDigits (ed.map digitVal) : Int))
    else none

def mkParsedDec (sg : Bool) (ip fp : List Char) (tailChars : List Char) :
    Option PyDecimal :=
  match parseExpPart tailChars with
  | none => none
  | some e =>
    some { sign := sg
           digits := stripLeadingZeros ((ip ++ fp).map digitVal)
           exponent := e - fp.length }

/-- Parse the mantissa (integer part, optional fraction) and optional
exponent of a numeric string whose sign has already been consumed. -/
def parseMantissaExp (sg : Bool) (cs1 : List Char) : Option PyDecimal :=
  let (ip, cs2) := spanDigits cs1
  match cs2 with
  | '.' :: rest =>
    let (fp, cs3) := spanDigits rest
    if ip.isEmpty ∧ fp.isEmpty then none else mkParsedDec sg ip fp cs3
  | _ => if ip.isEmpty then none else mkParsedDec sg ip [] cs2

/-- Parse a numeric string the way `decimal.Decimal` does (finite numbers:
optional sign, digits with an optional fraction part, optional exponent). -/
def parseDec (cs : List Char) : Option PyDecimal :=
  let (sg, cs1) := splitSignChars cs
  parseMantissaExp sg cs1

def renderDigits (ds : List Nat) : List Char := ds.map digitChar

def natDigitsF : Nat → Nat → List Nat
  | 0, n => [n]
  | fuel + 1, n => if n < 10 then [n] else natDigitsF fuel (n / 10) ++ [n % 10]

/-- Base-10 digits of a natural number, most significant first (structural
fuel recursion: `n` itself always suffices as fuel). -/
def natDigits (n : Nat) : List Nat := natDigitsF n n

/-- Render the exponent marker of scientific notation (`E`, explicit sign,
decimal digits of the adjusted exponent). -/
def renderExpPart (adjusted : Int) : List Char :=
  'E' :: (if adjusted < 0 then '-' else '+') ::
    renderDigits (natDigits adjusted.natAbs)

/-- Unsigned part of `Decimal.__str__`: plain notation when `exponent ≤ 0`
and the adjusted exponent is `≥ -6`, scientific notation otherwise. -/
def strDecBody (d : PyDecimal) : List Char :=
  let ds := d.digits
  let adj : Int := d.exponent + ds.length - 1
  if d.exponent ≤ 0 ∧ -6 ≤ adj then
    if d.exponent = 0 then renderDigits ds
    else if (ds.length : Int) ≤ -d.exponent then
      '0' :: '.' ::
        (List.replicate (-d.exponent - ds.length).toNat '0' ++ renderDigits ds)
    else
      renderDigits (ds.take (ds.length - (-d.exponent).toNat)) ++
        '.' :: renderDigits (ds.drop (ds.length - (-d.exponent).toNat))
  else
    match ds with
    | [] => []
    | d0 :: rest =>
      digitChar d0 ::
        (if rest.isEmpty then [] else '.' :: renderDigits rest) ++
          renderExpPart adj

/-- `Decimal.__str__`: the sign prefix followed by the unsigned body. -/
def strDec (d : PyDecimal) : List Char :=
  if d.sign then '-' :: strDecBody d else strDecBody d

def parseDecS (s : String) : Option PyDecimal := parseDec s.data

def strDecS (d : PyDecimal) : String := String.mk (strDec d)

/-- Exact rational value of a decimal. -/
def pyDecToRat (d : PyDecimal) : ℚ :=
  (if d.sign then -1 else 1) * (natFromDigits d.digits : ℚ) * (10 : ℚ) ^ d.exponent

/-- Exact product of two decimals (`Decimal.__mul__` on operands small enough
not to hit the context precision): coefficients multiply, exponents add. -/
def mulDec (a b : PyDecimal) : PyDecimal :=
  { sign := xor a.sign b.sign
    digits := natDigits (natFromDigits a.digits * natFromDigits b.digits)
    exponent := a.exponent + b.exponent }

/-! ## Wire types (src/data/connectors/types.py)

Decimal-text fields stay `String`, epoch-millisecond fields stay `Int`,
exactly as the `TypedDict` wire shapes keep them. -/

structure RawKline where
  open_time_ms : Int
  «open» : String
  high : String
  low : String
  close : String
  volume : String
  close_time_ms : Int
  quote_volume : String
  trade_count : Int
  taker_buy_volume : String
  taker_buy_quote_volume : String
  deriving DecidableEq, Repr, Inhabited

structure RawTrade where
  id : Int
  price : String
  qty : String
  quote_qty : String
  time : Int
  is_buyer_maker : Bool
  deriving DecidableEq, Repr

structure RawFundingRate where
  symbol : String
  funding_time_ms : Int
  funding_rate : String
  mark_price : String
  deriving DecidableEq, Repr, Inhabited

/-! ## Canonical types (src/data/types.py)

`Decimal` fields are modelled by exact rationals and `datetime` instants by
rational seconds since the epoch. -/

structure Trade where
  symbol : String
  price : ℚ
  quantity : ℚ
  timestamp : ℚ
  is_buyer_maker : Bool
  deriving DecidableEq, Repr, Inhabited

structure Bar where
  symbol : String
  «open» : ℚ
  high : ℚ
  low : ℚ
  close : ℚ
  volume : ℚ
  trade_count : Nat
  timestamp : ℚ
  close_time : ℚ
  deriving DecidableEq, Repr

structure TimeBar extends Bar where
  interval_seconds : Nat
  deriving DecidableEq, Repr

structure TickBar extends Bar where
  tick_threshold : Int
  deriving DecidableEq, Repr

structure VolumeBar extends Bar where
  volume_threshold : ℚ
  deriving DecidableEq, Repr

structure DollarBar extends Bar where
  dollar_threshold : ℚ
  deriving DecidableEq, Repr

/-! ## Bar aggregators (src/data/normalizers/bars.py)

`priceMax` / `priceMin` model Python's `max(...)` / `min(...)` over the
(nonempty) bucket, and `sumQty` models `sum((t.quantity for t in trades),
Decimal(0))`.  The `_make_*_bar` helpers are only ever applied to nonempty
buckets (Python would raise `IndexError` otherwise); `headI` / `getLastI`
give them a total reading. -/

def priceMax : List Trade → ℚ
  | [] => 0
  | t :: ts => ts.foldl (fun m x => max m x.price) t.price

def priceMin : List Trade → ℚ
  | [] => 0
  | t :: ts => ts.foldl (fun m x => min m x.price) t.price

def sumQty (trades : List Trade) : ℚ :=
  (trades.map (·.quantity)).sum

def sumNotional (trades : List Trade) : ℚ :=
  (trades.map (fun t => t.price * t.quantity)).sum

/-- Largest single-trade contribution (under `f`) within a bucket. -/
def maxContrib (f : Trade → ℚ) (b : List Trade) : ℚ :=
  (b.map f).foldr max 0

def _make_volume_bar (trades : List Trade) (threshold : ℚ) : VolumeBar :=
  { symbol := trades.headI.symbol
    «open» := trades.headI.price
    high := priceMax trades
    low := priceMin trades
    close := trades.getLastI.price
    volume := sumQty trades
    trade_count := trades.length
    timestamp := trades.headI.timestamp
    close_time := trades.getLastI.timestamp
    volume_threshold := threshold }

def _make_tick_bar (trades : List Trade) (threshold : Int) : TickBar :=
  { symbol := trades.headI.symbol
    «open» := trades.headI.price
    high := priceMax trades
    low := priceMin trades
    close := trades.getLastI.price
    volume := sumQty trades
    trade_count := trades.length
    timestamp := trades.headI.timestamp
    close_time := trades.getLastI.timestamp
    tick_threshold := threshold }

def _make_dollar_bar (trades : List Trade) (threshold : ℚ) : DollarBar :=
  { symbol := trades.headI.symbol
    «open» := trades.headI.price
    high := priceMax trades
    low := priceMin trades
    close := trades.getLastI.price
    volume := sumQty trades
    trade_count := trades.length
    timestamp := trades.headI.timestamp
    close_time := trades.getLastI.timestamp
    dollar_threshold := threshold }

/-- Loop body of `build_volume_bars`: state is the open bucket and the
running cumulative volume (reset after each emission). -/
def buildVolumeBarsGo (threshold : ℚ) :
    List Trade → List Trade → ℚ → List VolumeBar
  | [], _bucket, _cum => []
  | t :: ts, bucket, cum =>
    let bucket' := bucket ++ [t]
    let cum' := cum + t.quantity
    if threshold ≤ cum' then
      _make_volume_bar bucket' threshold :: buildVolumeBarsGo threshold ts [] 0
    else
      buildVolumeBarsGo threshold ts bucket' cum'

def build_volume_bars (trades : List Trade) (threshold : ℚ) : List VolumeBar :=
  buildVolumeBarsGo threshold trades [] 0

/-- Loop body of `build_tick_bars`: state is the open bucket; the Python
closure test is `len(bucket) >= threshold` with an `int` threshold. -/
def buildTickBarsGo (threshold : Int) :
    List Trade → List Trade → List TickBar
  | [], _bucket => []
  | t :: ts, bucket =>
    let bucket' := bucket ++ [t]
    if threshold ≤ (bucket'.length : Int) then
      _make_tick_bar bucket' threshold :: buildTickBarsGo threshold ts []
    else
      buildTickBarsGo threshold ts bucket'

def build_tick_bars (trades : List Trade) (threshold : Int) : List TickBar :=
  buildTickBarsGo threshold trades []

/-- Loop body of `build_dollar_bars`: state is the open bucket and the
running cumulative quote value (reset after each emission). -/
def buildDollarBarsGo (threshold : ℚ) :
    List Trade → List Trade → ℚ → List DollarBar
  | [], _bucket, _cum => []
  | t :: ts, bucket, cum =>
    let bucket' := bucket ++ [t]
    let cum' := cum + t.price * t.quantity
    if threshold ≤ cum' then
      _make_dollar_bar bucket' threshold :: buildDollarBarsGo threshold ts [] 0
    else
      buildDollarBarsGo threshold ts bucket' cum'

def build_dollar_bars (trades : List Trade) (threshold : ℚ) : List DollarBar :=
  buildDollarBarsGo threshold trades [] 0

/-! ## Paginator (src/data/connectors/binance.py `fetch_klines`,
src/data/connectors/binance_futures.py `fetch_funding_rates`)

The transport behind the REST endpoint is not part of the repository, so it
is modelled from the spec.  Each paginating fetch returns both the emitted
records and the list of per-request batch sizes (one entry per request
issued, in order), so that request-count properties can be stated. -/

/-- The dataset records covered by the inclusive instant range
`[startTime, endTime]`, klines being keyed by their open time. -/
def klinesInWindow (dataset : List RawKline) (startTime endTime : Int) :
    List RawKline :=
  dataset.filter fun k =>
    decide (startTime ≤ k.open_time_ms ∧ k.open_time_ms ≤ endTime)

/-- Modelled from the spec: the abstract transport boundary
`fetch_page(resource, symbol, interval?, start, end, page_cap)` — "one
bounded historical request" returning the ordered records of the dataset
covering `[start, end]` (inclusive instants, klines keyed by open time),
capped at `limit` records. -/
def serveKlines (dataset : List RawKline) (startTime endTime : Int)
    (limit : Nat) : List RawKline :=
  (klinesInWindow dataset startTime endTime).take limit

/-- Loop body of `fetch_klines`: while `cursor < end_ms`, request one page,
emit it, stop if it was short, else advance the cursor to the last record's
close time `+ 1`.  `fuel` bounds the iteration count (the wrapper passes
enough for any dataset). -/
def fetchKlinesGo (dataset : List RawKline) (P : Nat) (endMs : Int) :
    Nat → Int → List RawKline × List Nat
  | 0, _cursor => ([], [])
  | fuel + 1, cursor =>
    if cursor < endMs then
      let batch := serveKlines dataset cursor endMs P
      if batch.length < P then (batch, [batch.length])
      else
        let rest := fetchKlinesGo dataset P endMs fuel
          (batch.getLastI.close_time_ms + 1)
        (batch ++ rest.1, batch.length :: rest.2)
    else ([], [])

/-- `BinanceConnector.fetch_klines` (and its structurally identical futures
twin): first component is the emitted record sequence, second the per-request
batch sizes. -/
def fetch_klines (dataset : List RawKline) (P : Nat) (startMs endMs : Int) :
    List RawKline × List Nat :=
  fetchKlinesGo dataset P endMs (dataset.length + 1) startMs

/-- One unpaged request covering the same `[start, end]` range: what
`fetch_klines` emits when the page capacity exceeds the dataset size —
a single uncapped request behind the same `cursor < end` guard. -/
def singleUnpagedFetch (dataset : List RawKline) (startMs endMs : Int) :
    List RawKline :=
  if startMs < endMs then klinesInWindow dataset startMs endMs else []

/-- Source timestamps as the spec assumes them: each record closes no
earlier than it opens, and records are strictly chronological (each record
closes before the next one opens — Binance klines are non-overlapping
buckets keyed by unique open times). -/
def ChronoKlines (dataset : List RawKline) : Prop :=
  (∀ k ∈ dataset, k.open_time_ms ≤ k.close_time_ms) ∧
  dataset.Pairwise fun a b => a.close_time_ms < b.open_time_ms

/-- Modelled from the spec: the transport behind `/fapi/v1/fundingRate` —
records keyed by settlement time, filtered to `[startTime, endTime]`
(`endTime` optional), capped at `limit`. -/
def serveFunding (dataset : List RawFundingRate) (startTime : Int)
    (endTime : Option Int) (limit : Nat) : List RawFundingRate :=
  (dataset.filter fun r =>
    decide (startTime ≤ r.funding_time_ms) &&
      match endTime with
      | some e => decide (r.funding_time_ms ≤ e)
      | none => true).take limit

/-- Loop body of `fetch_funding_rates`: a `while True` loop — unlike the
kline fetch there is no `cursor < end` guard, so a request is always issued;
the loop stops only on a short batch. -/
def fetchFundingGo (dataset : List RawFundingRate) (P : Nat)
    (endMs : Option Int) : Nat → Int → List RawFundingRate × List Nat
  | 0, _cursor => ([], [])
  | fuel + 1, cursor =>
    let batch := serveFunding dataset cursor endMs P
    if batch.length < P then (batch, [batch.length])
    else
      let rest := fetchFundingGo dataset P endMs fuel
        (batch.getLastI.funding_time_ms + 1)
      (batch ++ rest.1, batch.length :: rest.2)

/-- `BinanceFuturesConnector.fetch_funding_rates`: emitted records plus
per-request batch sizes. -/
def fetch_funding_rates (dataset : List RawFundingRate) (P : Nat)
    (startMs : Int) (endMs : Option Int) : List RawFundingRate × List Nat :=
  fetchFundingGo dataset P endMs (dataset.length + 1) startMs

/-! ## Stream filter (src/data/connectors/binance.py `stream_klines`,
`stream_trades`) -/

/-- The `k` object of a Binance kline WebSocket message; `x` is the
is-bar-closed indicator. -/
structure WsKlinePayload where
  t : Int
  o : String
  h : String
  l : String
  c : String
  v : String
  T : Int
  q : String
  n : Int
  V : String
  Q : String
  x : Bool
  deriving DecidableEq, Repr

structure KlineStreamMsg where
  k : WsKlinePayload
  deriving DecidableEq, Repr

def _parse_ws_kline (k : WsKlinePayload) : RawKline :=
  { open_time_ms := k.t
    «open» := k.o
    high := k.h
    low := k.l
    close := k.c
    volume := k.v
    close_time_ms := k.T
    quote_volume := k.q
    trade_count := k.n
    taker_buy_volume := k.V
    taker_buy_quote_volume := k.Q }

/-- `stream_klines` over a finite prefix of the inbound message feed: decode
and forward a message only when its `x` indicator says the bar is closed. -/
def stream_klines : List KlineStreamMsg → List RawKline
  | [] => []
  | m :: ms =>
    if m.k.x then _parse_ws_kline m.k :: stream_klines ms
    else stream_klines ms

/-- A Binance trade WebSocket message (no partial/final distinction). -/
structure WsTradeMsg where
  t : Int
  p : String
  q : String
  T : Int
  m : Bool
  deriving DecidableEq, Repr

/-- `_parse_ws_trade`: the WS trade stream omits `quoteQty`, so it is
computed as `str(Decimal(p) * Decimal(q))`; a malformed decimal raises,
modelled as `none`. -/
def _parse_ws_trade (d : WsTradeMsg) : Option RawTrade := do
  let pd ← parseDecS d.p
  let qd ← parseDecS d.q
  pure { id := d.t
         price := d.p
         qty := d.q
         quote_qty := strDecS (mulDec pd qd)
         time := d.T
         is_buyer_maker := d.m }

/-- `stream_trades` over a finite prefix of the feed: every message is
decoded and forwarded; a decode failure aborts the stream. -/
def stream_trades (msgs : List WsTradeMsg) : Option (List RawTrade) :=
  msgs.mapM _parse_ws_trade

/-! ## REST payload parsers (error handling, src/data/connectors)

JSON objects are modelled as records of optional fields: a `none` field is a
missing key, and indexing a missing key (`row["..."]`, a `KeyError`) is a
propagated failure, while `row.get(key, default)` substitutes the default. -/

structure FundingRatePayload where
  symbol : Option String
  fundingTime : Option Int
  fundingRate : Option String
  markPrice : Option String
  deriving DecidableEq, Repr

/-- `_parse_funding_rate`: `symbol`, `fundingTime`, `fundingRate` are indexed
directly (missing → failure), but `markPrice` uses
`row.get("markPrice", "0")`. -/
def _parse_funding_rate (row : FundingRatePayload) : Option RawFundingRate := do
  let s ← row.symbol
  let ft ← row.fundingTime
  let fr ← row.fundingRate
  pure { symbol := s
         funding_time_ms := ft
         funding_rate := fr
         mark_price := row.markPrice.getD "0" }

structure TradePayload where
  id : Option Int
  price : Option String
  qty : Option String
  quoteQty : Option String
  time : Option Int
  isBuyerMaker : Option Bool
  deriving DecidableEq, Repr

/-- `_parse_rest_trade`: every field is indexed directly, so any missing
field is a propagated failure. -/
def _parse_rest_trade (row : TradePayload) : Option RawTrade := do
  let i ← row.id
  let p ← row.price
  let q ← row.qty
  let qq ← row.quoteQty
  let tm ← row.time
  let mk ← row.isBuyerMaker
  pure { id := i
         price := p
         qty := q
         quote_qty := qq
         time := tm
         is_buyer_maker := mk }

/-! ## Normalizer (src/data/normalizers/binance.py) -/

/-- `_ms_to_utc`: epoch milliseconds to a UTC instant (rational seconds). -/
def msToUtc (ms : Int) : ℚ := (ms : ℚ) / 1000

/-- `to_trade`: wire trade to canonical trade; the decimal-text fields go
through the exact `Decimal` constructor (a conversion failure propagates,
modelled as `none`) and never through a binary float. -/
def to_trade (raw : RawTrade) (symbol : String) : Option Trade := do
  let p ← parseDecS raw.price
  let q ← parseDecS raw.qty
  pure { symbol := symbol
         price := pyDecToRat p
         quantity := pyDecToRat q
         timestamp := msToUtc raw.time
         is_buyer_maker := raw.is_buyer_maker }

/-! ## Concrete fixtures used by counterexamples and witnesses -/

def mkFixtureKline (o c : Int) : RawKline :=
  { open_time_ms := o
    «open» := "1"
    high := "2"
    low := "0.5"
    close := "1.5"
    volume := "10"
    close_time_ms := c
    quote_volume := "15"
    trade_count := 7
    taker_buy_volume := "4"
    taker_buy_quote_volume := "6" }

/-- Ten chronological bars opening at `10·i`, closing at `10·i + 9`. -/
def fixture10 : List RawKline :=
  (List.range 10).map fun i => mkFixtureKline (10 * i) (10 * i + 9)

/-- Six chronological bars (an exact multiple of a page cap of 3). -/
def fixture6 : List RawKline :=
  (List.range 6).map fun i => mkFixtureKline (10 * i) (10 * i + 9)

/-- Two chronological bars, the second opening exactly at millisecond 1. -/
def klineCexData : List RawKline := [mkFixtureKline 0 0, mkFixtureKline 1 1]

def fundingFixture : List RawFundingRate :=
  [{ symbol := "BTCUSDT", funding_time_ms := 5, funding_rate := "0.0001",
     mark_price := "1" },
   { symbol := "BTCUSDT", funding_time_ms := 10, funding_rate := "0.0002",
     mark_price := "1" }]

def scenarioTrade (i : Nat) (q : ℚ) : Trade :=
  { symbol := "BTCUSDT"
    price := 1 + i
    quantity := q
    timestamp := i
    is_buyer_maker := false }

/-- Seven chronological trades with quantities `[1,1,1,2,1,1,1]`. -/
def scenarioTrades : List Trade :=
  [scenarioTrade 1 1, scenarioTrade 2 1, scenarioTrade 3 1, scenarioTrade 4 2,
   scenarioTrade 5 1, scenarioTrade 6 1, scenarioTrade 7 1]

def finalKlinePayload (i : Int) : WsKlinePayload :=
  { t := i, o := "1", h := "2", l := "0.5", c := "1.5", v := "10",
    T := i + 59, q := "15", n := 7, V := "4", Q := "6", x := true }

def partialKlinePayload (i : Int) : WsKlinePayload :=
  { t := i, o := "1", h := "2", l := "0.5", c := "1.4", v := "9",
    T := i + 59, q := "14", n := 6, V := "4", Q := "6", x := false }

/-- A feed interleaving 5 partial updates with 3 finalized bars. -/
def gatingFeed : List KlineStreamMsg :=
  [⟨partialKlinePayload 10⟩, ⟨finalKlinePayload 1⟩, ⟨partialKlinePayload 20⟩,
   ⟨partialKlinePayload 30⟩, ⟨finalKlinePayload 2⟩, ⟨partialKlinePayload 40⟩,
   ⟨partialKlinePayload 50⟩, ⟨finalKlinePayload 3⟩]

/-! ## Theorems -/

/-- C8: every input of exactly seven chronologically ordered trades with
quantities `[1,1,1,2,1,1,1]` (prices, timestamps, symbols arbitrary) at
volume threshold `4` yields exactly one volume bar, closing after trades
1–4 with cumulative volume `5 ≥ 4` and trade count 4; the last three
trades (cumulative volume `3 < 4`) are discarded as an incomplete
bucket. -/
theorem volume_scenario_seven_trades (t1 t2 t3 t4 t5 t6 t7 : Trade)
    (_hord : ([t1, t2, t3, t4, t5, t6, t7] : List Trade).Pairwise
      fun a b => a.timestamp ≤ b.timestamp)
    (h1 : t1.quantity = 1) (h2 : t2.quantity = 1) (h3 : t3.quantity = 1)
    (h4 : t4.quantity = 2) (h5 : t5.quantity = 1) (h6 : t6.quantity = 1)
    (h7 : t7.quantity = 1) :
    build_volume_bars [t1, t2, t3, t4, t5, t6, t7] 4 =
      [_make_volume_bar [t1, t2, t3, t4] 4] ∧
    (_make_volume_bar [t1, t2, t3, t4] 4).volume = 5 ∧
    (_make_volume_bar [t1, t2, t3, t4] 4).trade_count = 4 ∧
    sumQty [t5, t6, t7] = 3 ∧ (3 : ℚ) < 4 := by
  refine ⟨?_, ?_, ?_, ?_, by norm_num⟩
  · norm_num [build_volume_bars, buildVolumeBarsGo, h1, h2, h3, h4, h5, h6,
      h7]
  · norm_num [_make_volume_bar, sumQty, h1, h2, h3, h4]
  · norm_num [_make_volume_bar]
  · norm_num [sumQty, h5, h6, h7]

/-- Witness for C8 at the concrete seven-trade fixture. -/
theorem volume_scenario_seven_trades_witness :
    build_volume_bars scenarioTrades 4 =
      [_make_volume_bar (scenarioTrades.take 4) 4] ∧
    (_make_volume_bar (scenarioTrades.take 4) 4).volume = 5 ∧
    (_make_volume_bar (scenarioTrades.take 4) 4).trade_count = 4 ∧
    sumQty (scenarioTrades.drop 4) = 3 :=
  have h := volume_scenario_seven_trades (scenarioTrade 1 1)
    (scenarioTrade 2 1) (scenarioTrade 3 1) (scenarioTrade 4 2)
    (scenarioTrade 5 1) (scenarioTrade 6 1) (scenarioTrade 7 1)
    (by simp [scenarioTrade, List.pairwise_cons]; norm_num)
    rfl rfl rfl rfl rfl rfl rfl
  ⟨h.1, h.2.1, h.2.2.1, h.2.2.2.1⟩

/-- The claim that no missing field is ever silently replaced by a default
is refuted by the funding-rate parser: a payload whose `markPrice` key is
absent still parses, with the mark price silently defaulted to `"0"`. -/
theorem missing_field_handling_cex :
    (FundingRatePayload.mk (some "BTCUSDT") (some 1720000000000)
        (some "0.00010000") none).markPrice = none ∧
    _parse_funding_rate
        (FundingRatePayload.mk (some "BTCUSDT") (some 1720000000000)
          (some "0.00010000") none) =
      some { symbol := "BTCUSDT", funding_time_ms := 1720000000000,
             funding_rate := "0.00010000", mark_price := "0" } :=
  ⟨rfl, rfl⟩

/-- C7 (amended): a missing required field propagates a conversion failure
for trade parsing and for the funding-rate fields `symbol` / `fundingTime` /
`fundingRate`, and non-numeric decimal text fails at normalization; the one
exception is the funding-rate `markPrice` field, which is silently defaulted
to `"0"` when absent. -/
theorem missing_field_handling
    (row : TradePayload) (frow grow : FundingRatePayload)
    (raw : RawTrade) (sym : String) :
    (row.id = none ∨ row.price = none ∨ row.qty = none ∨
        row.quoteQty = none ∨ row.time = none ∨ row.isBuyerMaker = none →
      _parse_rest_trade row = none) ∧
    (frow.symbol = none ∨ frow.fundingTime = none ∨ frow.fundingRate = none →
      _parse_funding_rate frow = none) ∧
    (grow.markPrice = none →
      ∀ r, _parse_funding_rate grow = some r → r.mark_price = "0") ∧
    (parseDecS raw.price = none → to_trade raw sym = none) := by
  refine ⟨?_, ?_, ?_, ?_⟩
  · obtain ⟨i, p, q, qq, tm, bm⟩ := row
    cases i <;> cases p <;> cases q <;> cases qq <;> cases tm <;> cases bm <;>
      simp_all [_parse_rest_trade]
  · obtain ⟨s, ft, fr, mp⟩ := frow
    cases s <;> cases ft <;> cases fr <;>
      simp_all [_parse_funding_rate]
  · obtain ⟨s, ft, fr, mp⟩ := grow
    intro h r hr
    cases s <;> cases ft <;> cases fr <;>
      simp_all [_parse_funding_rate]
    subst h
    rw [← hr]
  · intro h
    simp [to_trade, h, Option.bind]

/-- Witness for C7 at concrete payloads. -/
theorem missing_field_handling_witness :
    _parse_rest_trade
        (TradePayload.mk none (some "1") (some "1") (some "1") (some 1)
          (some true)) = none ∧
    _parse_funding_rate
        (FundingRatePayload.mk none (some 1) (some "0.0001") (some "1")) =
      none ∧
    (RawFundingRate.mk "BTCUSDT" 1720000000000 "0.00010000" "0").mark_price =
      "0" ∧
    to_trade (RawTrade.mk 1 "abc" "1" "1" 5 true) "BTCUSDT" = none := by
  refine ⟨?_, ?_, ?_, ?_⟩
  · exact (missing_field_handling
      (TradePayload.mk none (some "1") (some "1") (some "1") (some 1)
        (some true))
      (FundingRatePayload.mk none (some 1) (some "0.0001") (some "1"))
      (FundingRatePayload.mk (some "BTCUSDT") (some 1720000000000)
        (some "0.00010000") none)
      (RawTrade.mk 1 "abc" "1" "1" 5 true) "BTCUSDT").1 (Or.inl rfl)
  · exact (missing_field_handling
      (TradePayload.mk none (some "1") (some "1") (some "1") (some 1)
        (some true))
      (FundingRatePayload.mk none (some 1) (some "0.0001") (some "1"))
      (FundingRatePayload.mk (some "BTCUSDT") (some 1720000000000)
        (some "0.00010000") none)
      (RawTrade.mk 1 "abc" "1" "1" 5 true) "BTCUSDT").2.1 (Or.inl rfl)
  · exact (missing_field_handling
      (TradePayload.mk none (some "1") (some "1") (some "1") (some 1)
        (some true))
      (FundingRatePayload.mk none (some 1) (some "0.0001") (some "1"))
      (FundingRatePayload.mk (some "BTCUSDT") (some 1720000000000)
        (some "0.00010000") none)
      (RawTrade.mk 1 "abc" "1" "1" 5 true) "BTCUSDT").2.2.1 rfl _ rfl
  · exact (missing_field_handling
      (TradePayload.mk none (some "1") (some "1") (some "1") (some 1)
        (some true))
      (FundingRatePayload.mk none (some 1) (some "0.0001") (some "1"))
      (FundingRatePayload.mk (some "BTCUSDT") (some 1720000000000)
        (some "0.00010000") none)
      (RawTrade.mk 1 "abc" "1" "1" 5 true) "BTCUSDT").2.2.2 rfl

/-- C10: the kline stream filter forwards exactly the messages whose
is-final indicator `x` is true, in arrival order (a feed of 5 partial and 3
final messages yields exactly the 3 final records), while the trade stream
forwards every message in order. -/
theorem stream_gating (msgs : List KlineStreamMsg) (tmsgs : List WsTradeMsg)
    (out : List RawTrade) :
    stream_klines msgs =
      ((msgs.filter fun m => m.k.x).map fun m => _parse_ws_kline m.k) ∧
    stream_klines gatingFeed =
      [_parse_ws_kline (finalKlinePayload 1), _parse_ws_kline (finalKlinePayload 2),
       _parse_ws_kline (finalKlinePayload 3)] ∧
    (stream_klines gatingFeed).length = 3 ∧
    (stream_trades tmsgs = some out →
      out.length = tmsgs.length ∧
      ∀ i (hi : i < tmsgs.length) (ho : i < out.length),
        _parse_ws_trade (tmsgs.get ⟨i, hi⟩) = some (out.get ⟨i, ho⟩)) := by
  refine ⟨?_, by rfl, by rfl, ?_⟩
  · induction msgs with
    | nil => rfl
    | cons m ms ih =>
      by_cases h : m.k.x <;> simp [stream_klines, h, ih, List.filter_cons]
  · unfold stream_trades
    induction tmsgs generalizing out with
    | nil =>
      intro h
      simp only [List.mapM_nil, Option.pure_def, Option.some_inj] at h
      subst h
      exact ⟨rfl, fun i hi => absurd hi (Nat.not_lt_zero i)⟩
    | cons t ts ih =>
      intro h
      simp only [List.mapM_cons, Option.pure_def, Option.bind_eq_bind,
        Option.bind_eq_some, Option.some_inj] at h
      obtain ⟨v, hv, vs, hvs, rfl⟩ := h
      obtain ⟨hlen, hidx⟩ := ih vs hvs
      refine ⟨by simpa using congrArg Nat.succ hlen, ?_⟩
      intro i hi ho
      cases i with
      | zero => simpa using hv
      | succ j =>
        exact hidx j (Nat.lt_of_succ_lt_succ hi) (Nat.lt_of_succ_lt_succ ho)

/-- Witness for C10 at a concrete one-message trade feed and the concrete
gating feed. -/
theorem stream_gating_witness :
    stream_klines gatingFeed =
      ((gatingFeed.filter fun m => m.k.x).map fun m => _parse_ws_kline m.k) ∧
    stream_trades [WsTradeMsg.mk 1 "2" "3" 4 false] =
      some [RawTrade.mk 1 "2" "3" "6" 4 false] ∧
    ([RawTrade.mk 1 "2" "3" "6" 4 false] : List RawTrade).length = 1 := by
  have h : stream_trades [WsTradeMsg.mk 1 "2" "3" 4 false] =
      some [RawTrade.mk 1 "2" "3" "6" 4 false] := by rfl
  exact ⟨(stream_gating gatingFeed [] []).1, h,
    ((stream_gating gatingFeed [WsTradeMsg.mk 1 "2" "3" 4 false]
      [RawTrade.mk 1 "2" "3" "6" 4 false]).2.2.2 h).1⟩

/-- Unfolding `buildTickBarsGo` from a partially filled bucket: the next bar
closes exactly when the bucket reaches the threshold. -/
theorem buildTickBarsGo_eq (T : Int) (hT : 1 ≤ T) (ts : List Trade) :
    ∀ bucket : List Trade, bucket.length < T.toNat →
      buildTickBarsGo T ts bucket =
        if ts.length < T.toNat - bucket.length then []
        else
          _make_tick_bar (bucket ++ ts.take (T.toNat - bucket.length)) T ::
            buildTickBarsGo T (ts.drop (T.toNat - bucket.length)) [] := by
  induction ts with
  | nil =>
    intro bucket hb
    rw [if_pos (by simp only [List.length_nil]; omega)]
    rfl
  | cons t ts ih =>
    intro bucket hb
    have hstep : buildTickBarsGo T (t :: ts) bucket =
        if T ≤ ((bucket ++ [t]).length : Int) then
          _make_tick_bar (bucket ++ [t]) T :: buildTickBarsGo T ts []
        else buildTickBarsGo T ts (bucket ++ [t]) := rfl
    have hlen : (bucket ++ [t]).length = bucket.length + 1 := by simp
    by_cases hclose : T.toNat ≤ bucket.length + 1
    · have hcond : T ≤ ((bucket ++ [t]).length : Int) := by
        rw [hlen]; push_cast; omega
      rw [hstep, if_pos hcond]
      have h1 : T.toNat - bucket.length = 1 := by omega
      rw [if_neg (by simp only [List.length_cons]; omega), h1,
        List.take_succ_cons, List.take_zero, List.drop_succ_cons,
        List.drop_zero]
    · have hcond : ¬ T ≤ ((bucket ++ [t]).length : Int) := by
        rw [hlen]; push_cast; omega
      rw [hstep, if_neg hcond, ih (bucket ++ [t]) (by rw [hlen]; omega), hlen]
      have h3 : T.toNat - bucket.length =
          (T.toNat - (bucket.length + 1)) + 1 := by omega
      by_cases hend : ts.length < T.toNat - (bucket.length + 1)
      · rw [if_pos hend, if_pos (by simp only [List.length_cons]; omega)]
      · rw [if_neg hend, if_neg (by simp only [List.length_cons]; omega)]
        rw [h3, List.take_succ_cons, List.drop_succ_cons]
        simp

/-- `build_tick_bars` consumes its input `T.toNat` trades at a time. -/
theorem build_tick_bars_recurrence (T : Int) (hT : 1 ≤ T)
    (trades : List Trade) :
    build_tick_bars trades T =
      if trades.length < T.toNat then []
      else
        _make_tick_bar (trades.take T.toNat) T ::
          build_tick_bars (trades.drop T.toNat) T := by
  have h := buildTickBarsGo_eq T hT trades [] (by simp; omega)
  simpa [build_tick_bars] using h

/-- C2: with `N` trades and an integer threshold `T ≥ 1`, `build_tick_bars`
returns exactly `⌊N / T⌋` bars, the `i`-th synthesized from exactly the `T`
consecutive trades at positions `i·T, …, i·T + T - 1` of the input, so the
final `N mod T` trades contribute to no bar. -/
theorem tick_bar_partition (trades : List Trade) (T : Int) (hT : 1 ≤ T) :
    (build_tick_bars trades T).length = trades.length / T.toNat ∧
    ∀ i (hi : i < (build_tick_bars trades T).length),
      ((trades.drop (i * T.toNat)).take T.toNat).length = T.toNat ∧
      (build_tick_bars trades T).get ⟨i, hi⟩ =
        _make_tick_bar ((trades.drop (i * T.toNat)).take T.toNat) T := by
  suffices H : ∀ (N : Nat) (l : List Trade), l.length = N →
      (build_tick_bars l T).length = l.length / T.toNat ∧
      ∀ i (hi : i < (build_tick_bars l T).length),
        ((l.drop (i * T.toNat)).take T.toNat).length = T.toNat ∧
        (build_tick_bars l T).get ⟨i, hi⟩ =
          _make_tick_bar ((l.drop (i * T.toNat)).take T.toNat) T by
    exact H trades.length trades rfl
  intro N
  induction N using Nat.strong_induction_on with
  | _ N ih =>
    intro l hN
    rw [build_tick_bars_recurrence T hT]
    by_cases h : l.length < T.toNat
    · rw [if_pos h]
      refine ⟨by simpa using (Nat.div_eq_of_lt h).symm, ?_⟩
      intro i hi
      exact absurd hi (by simp)
    · rw [if_neg h]
      have hT' : 0 < T.toNat := by omega
      have hdroplen : (l.drop T.toNat).length = N - T.toNat := by
        simp [hN]
      obtain ⟨ihlen, ihidx⟩ := ih (N - T.toNat) (by omega) (l.drop T.toNat)
        hdroplen
      constructor
      · rw [List.length_cons, ihlen, hdroplen, hN,
          Nat.div_eq_sub_div hT' (show T.toNat ≤ N by omega)]
      · intro i hi
        cases i with
        | zero =>
          refine ⟨?_, ?_⟩
          · simp only [Nat.zero_mul, List.drop_zero]
            simp [List.length_take]
            omega
          · simp
        | succ j =>
          have hj : j < (build_tick_bars (l.drop T.toNat) T).length := by
            simpa using Nat.lt_of_succ_lt_succ hi
          obtain ⟨hlen', hget'⟩ := ihidx j hj
          have hdd : (l.drop T.toNat).drop (j * T.toNat) =
              l.drop ((j + 1) * T.toNat) := by
            rw [List.drop_drop]
            congr 1
            ring
          refine ⟨by rw [← hdd]; exact hlen', ?_⟩
          rw [List.get_cons_succ]
          rw [← hdd]
          exact hget'

/-- Witness for C2: seven trades at threshold 2 yield `⌊7/2⌋ = 3` bars. -/
theorem tick_bar_partition_witness :
    (build_tick_bars scenarioTrades 2).length =
      scenarioTrades.length / (2 : Int).toNat ∧
    scenarioTrades.length / (2 : Int).toNat = 3 :=
  ⟨(tick_bar_partition scenarioTrades 2 (by norm_num)).1, rfl⟩

theorem getLastI_mem {α : Type} [Inhabited α] {l : List α} (h : l ≠ []) :
    l.getLastI ∈ l := by
  rw [List.getLastI_eq_getLast? l, List.getLast?_eq_getLast_of_ne_nil h]
  exact List.getLast_mem h

theorem headI_mem {α : Type} [Inhabited α] {l : List α} (h : l ≠ []) :
    l.headI ∈ l := by
  cases l with
  | nil => exact absurd rfl h
  | cons a t => exact List.mem_cons_self a t

theorem le_maxContrib (f : Trade → ℚ) {x : Trade} {b : List Trade}
    (hx : x ∈ b) : f x ≤ maxContrib f b := by
  induction b with
  | nil => cases hx
  | cons y ys ih =>
    rcases List.mem_cons.mp hx with h | h
    · subst h
      exact le_max_left _ _
    · exact (ih h).trans (le_max_right _ _)

theorem sumQty_append_singleton (bucket : List Trade) (t : Trade) :
    sumQty (bucket ++ [t]) = sumQty bucket + t.quantity := by
  simp [sumQty]

theorem sumNotional_append_singleton (bucket : List Trade) (t : Trade) :
    sumNotional (bucket ++ [t]) =
      sumNotional bucket + t.price * t.quantity := by
  simp [sumNotional]

/-- Every bar emitted by the volume-bar fold comes from a nonempty bucket of
consecutive input trades whose cumulative volume first reaches the
threshold at the closing trade. -/
theorem buildVolumeBarsGo_bounds (θ : ℚ) (hθ : 0 < θ) (trades : List Trade) :
    ∀ ts bucket : List Trade, ∀ cum : ℚ,
      cum = sumQty bucket → cum < θ →
      (∃ pre, trades = pre ++ bucket ++ ts) →
      ∀ bar ∈ buildVolumeBarsGo θ ts bucket cum,
        ∃ pre b post, trades = pre ++ b ++ post ∧ b ≠ [] ∧
          bar = _make_volume_bar b θ ∧ θ ≤ sumQty b ∧
          sumQty b < θ + maxContrib (·.quantity) b := by
  intro ts
  induction ts with
  | nil =>
    intro bucket cum _ _ _ bar hbar
    cases hbar
  | cons t ts ih =>
    intro bucket cum hcum hlt hpre bar hbar
    obtain ⟨pre, hpre⟩ := hpre
    have hstep : buildVolumeBarsGo θ (t :: ts) bucket cum =
        if θ ≤ cum + t.quantity then
          _make_volume_bar (bucket ++ [t]) θ ::
            buildVolumeBarsGo θ ts [] 0
        else buildVolumeBarsGo θ ts (bucket ++ [t]) (cum + t.quantity) := rfl
    rw [hstep] at hbar
    by_cases hc : θ ≤ cum + t.quantity
    · rw [if_pos hc] at hbar
      have hsum : sumQty (bucket ++ [t]) = cum + t.quantity := by
        rw [hcum, sumQty_append_singleton]
      rcases List.mem_cons.mp hbar with hb | hb
      · refine ⟨pre, bucket ++ [t], ts, ?_, by simp, hb, ?_, ?_⟩
        · rw [hpre]; simp
        · rw [hsum]; exact hc
        · rw [hsum]
          have hmax : t.quantity ≤ maxContrib (·.quantity) (bucket ++ [t]) :=
            le_maxContrib _ (List.mem_append_right _ (List.mem_singleton.mpr
              rfl))
          linarith
      · exact ih [] 0 (by simp [sumQty]) hθ
          ⟨pre ++ (bucket ++ [t]), by rw [hpre]; simp⟩ bar hb
    · rw [if_neg hc] at hbar
      exact ih (bucket ++ [t]) (cum + t.quantity)
        (by rw [hcum, sumQty_append_singleton]) (not_le.mp hc)
        ⟨pre, by rw [hpre]; simp⟩ bar hbar

/-- Dollar-bar analogue of `buildVolumeBarsGo_bounds`, with the cumulative
quote-notional accumulator. -/
theorem buildDollarBarsGo_bounds (θ : ℚ) (hθ : 0 < θ) (trades : List Trade) :
    ∀ ts bucket : List Trade, ∀ cum : ℚ,
      cum = sumNotional bucket → cum < θ →
      (∃ pre, trades = pre ++ bucket ++ ts) →
      ∀ bar ∈ buildDollarBarsGo θ ts bucket cum,
        ∃ pre b post, trades = pre ++ b ++ post ∧ b ≠ [] ∧
          bar = _make_dollar_bar b θ ∧ θ ≤ sumNotional b ∧
          sumNotional b < θ + maxContrib (fun t => t.price * t.quantity) b := by
  intro ts
  induction ts with
  | nil =>
    intro bucket cum _ _ _ bar hbar
    cases hbar
  | cons t ts ih =>
    intro bucket cum hcum hlt hpre bar hbar
    obtain ⟨pre, hpre⟩ := hpre
    have hstep : buildDollarBarsGo θ (t :: ts) bucket cum =
        if θ ≤ cum + t.price * t.quantity then
          _make_dollar_bar (bucket ++ [t]) θ ::
            buildDollarBarsGo θ ts [] 0
        else
          buildDollarBarsGo θ ts (bucket ++ [t])
            (cum + t.price * t.quantity) := rfl
    rw [hstep] at hbar
    by_cases hc : θ ≤ cum + t.price * t.quantity
    · rw [if_pos hc] at hbar
      have hsum : sumNotional (bucket ++ [t]) = cum + t.price * t.quantity :=
        by rw [hcum, sumNotional_append_singleton]
      rcases List.mem_cons.mp hbar with hb | hb
      · refine ⟨pre, bucket ++ [t], ts, ?_, by simp, hb, ?_, ?_⟩
        · rw [hpre]; simp
        · rw [hsum]; exact hc
        · rw [hsum]
          have hmax : t.price * t.quantity ≤
              maxContrib (fun t => t.price * t.quantity) (bucket ++ [t]) :=
            le_maxContrib _ (List.mem_append_right _ (List.mem_singleton.mpr
              rfl))
          linarith
      · exact ih [] 0 (by simp [sumNotional]) hθ
          ⟨pre ++ (bucket ++ [t]), by rw [hpre]; simp⟩ bar hb
    · rw [if_neg hc] at hbar
      exact ih (bucket ++ [t]) (cum + t.price * t.quantity)
        (by rw [hcum, sumNotional_append_singleton]) (not_le.mp hc)
        ⟨pre, by rw [hpre]; simp⟩ bar hbar

/-- C3: with strictly positive quantities (and prices) and a positive
threshold, every volume (resp. dollar) bar closes with a cumulative
accumulator value that is at least the threshold and overshoots it by less
than the largest single-trade contribution inside that bar's bucket. -/
theorem threshold_crossing_bounds (trades : List Trade) (θv θd : ℚ)
    (hv : 0 < θv) (hd : 0 < θd)
    (_hq : ∀ t ∈ trades, 0 < t.quantity)
    (_hp : ∀ t ∈ trades, 0 < t.price) :
    (∀ bar ∈ build_volume_bars trades θv,
      ∃ pre b post, trades = pre ++ b ++ post ∧ b ≠ [] ∧
        bar = _make_volume_bar b θv ∧ θv ≤ sumQty b ∧
        sumQty b < θv + maxContrib (·.quantity) b) ∧
    (∀ bar ∈ build_dollar_bars trades θd,
      ∃ pre b post, trades = pre ++ b ++ post ∧ b ≠ [] ∧
        bar = _make_dollar_bar b θd ∧ θd ≤ sumNotional b ∧
        sumNotional b < θd + maxContrib (fun t => t.price * t.quantity) b) :=
  ⟨buildVolumeBarsGo_bounds θv hv trades trades [] 0 (by simp [sumQty]) hv
      ⟨[], by simp⟩,
    buildDollarBarsGo_bounds θd hd trades trades [] 0 (by simp [sumNotional])
      hd ⟨[], by simp⟩⟩

/-- Witness for C3 on the seven-trade fixture with thresholds 4 and 10. -/
theorem threshold_crossing_bounds_witness :
    _make_volume_bar (scenarioTrades.take 4) 4 ∈
      build_volume_bars scenarioTrades 4 ∧
    ∃ pre b post, scenarioTrades = pre ++ b ++ post ∧ b ≠ [] ∧
      _make_volume_bar (scenarioTrades.take 4) 4 = _make_volume_bar b 4 ∧
      4 ≤ sumQty b ∧ sumQty b < 4 + maxContrib (·.quantity) b := by
  have hmem : _make_volume_bar (scenarioTrades.take 4) 4 ∈
      build_volume_bars scenarioTrades 4 := by
    have hb : build_volume_bars scenarioTrades 4 =
        [_make_volume_bar (scenarioTrades.take 4) 4] := by
      norm_num [build_volume_bars, buildVolumeBarsGo, scenarioTrades,
        scenarioTrade]
    rw [hb]
    exact List.mem_singleton.mpr rfl
  exact ⟨hmem,
    (threshold_crossing_bounds scenarioTrades 4 10 (by norm_num) (by norm_num)
      (by intro t ht; fin_cases ht <;> norm_num [scenarioTrade])
      (by intro t ht; fin_cases ht <;> norm_num [scenarioTrade])).1 _ hmem⟩

theorem le_foldl_max (l : List Trade) :
    ∀ init : ℚ, init ≤ l.foldl (fun m x => max m x.price) init ∧
      ∀ x ∈ l, x.price ≤ l.foldl (fun m x => max m x.price) init := by
  induction l with
  | nil => intro init; exact ⟨le_refl _, by simp⟩
  | cons y ys ih =>
    intro init
    constructor
    · exact (le_max_left init y.price).trans (ih (max init y.price)).1
    · intro x hx
      rcases List.mem_cons.mp hx with h | h
      · subst h
        exact (le_max_right init x.price).trans (ih (max init x.price)).1
      · exact (ih (max init y.price)).2 x h

theorem foldl_min_le (l : List Trade) :
    ∀ init : ℚ, l.foldl (fun m x => min m x.price) init ≤ init ∧
      ∀ x ∈ l, l.foldl (fun m x => min m x.price) init ≤ x.price := by
  induction l with
  | nil => intro init; exact ⟨le_refl _, by simp⟩
  | cons y ys ih =>
    intro init
    constructor
    · exact (ih (min init y.price)).1.trans (min_le_left init y.price)
    · intro x hx
      rcases List.mem_cons.mp hx with h | h
      · subst h
        exact (ih (min init x.price)).1.trans (min_le_right init x.price)
      · exact (ih (min init y.price)).2 x h

theorem le_priceMax {b : List Trade} {x : Trade} (hx : x ∈ b) :
    x.price ≤ priceMax b := by
  cases b with
  | nil => cases hx
  | cons y ys =>
    rcases List.mem_cons.mp hx with h | h
    · subst h
      exact (le_foldl_max ys x.price).1
    · exact (le_foldl_max ys y.price).2 x h

theorem priceMin_le {b : List Trade} {x : Trade} (hx : x ∈ b) :
    priceMin b ≤ x.price := by
  cases b with
  | nil => cases hx
  | cons y ys =>
    rcases List.mem_cons.mp hx with h | h
    · subst h
      exact (foldl_min_le ys x.price).1
    · exact (foldl_min_le ys y.price).2 x h

theorem headI_ts_le_getLastI_ts {b : List Trade} (hb : b ≠ [])
    (hs : b.Pairwise fun a c => a.timestamp ≤ c.timestamp) :
    b.headI.timestamp ≤ b.getLastI.timestamp := by
  cases b with
  | nil => exact absurd rfl hb
  | cons a t =>
    have hmem := getLastI_mem (l := a :: t) (by simp)
    rcases List.mem_cons.mp hmem with h | h
    · rw [show (a :: t).headI = a from rfl, h]
    · exact (List.pairwise_cons.mp hs).1 _ h

/-- Core OHLC facts about a single nonempty, chronologically sorted bucket
with nonnegative quantities. -/
theorem bucket_core_inv (b : List Trade) (hb : b ≠ [])
    (hs : b.Pairwise fun a c => a.timestamp ≤ c.timestamp)
    (hq : ∀ t ∈ b, 0 ≤ t.quantity) :
    priceMin b ≤ b.headI.price ∧ b.headI.price ≤ priceMax b ∧
    priceMin b ≤ b.getLastI.price ∧ b.getLastI.price ≤ priceMax b ∧
    0 ≤ sumQty b ∧ 1 ≤ b.length ∧
    b.headI.timestamp ≤ b.getLastI.timestamp := by
  refine ⟨priceMin_le (headI_mem hb), le_priceMax (headI_mem hb),
    priceMin_le (getLastI_mem hb), le_priceMax (getLastI_mem hb), ?_, ?_, ?_⟩
  · exact List.sum_nonneg (by
      intro q hq'
      obtain ⟨t, ht, rfl⟩ := List.mem_map.mp hq'
      exact hq t ht)
  · cases b with
    | nil => exact absurd rfl hb
    | cons _ _ => simp
  · exact headI_ts_le_getLastI_ts hb hs

/-- A bucket decomposition makes its bucket a sublist of the input. -/
theorem bucket_sublist {trades pre b post : List Trade}
    (h : trades = pre ++ b ++ post) : List.Sublist b trades := by
  rw [h, List.append_assoc]
  exact (List.sublist_append_left b post).trans
    (List.sublist_append_right pre (b ++ post))

/-- Every tick bar comes from a nonempty bucket of consecutive trades. -/
theorem buildTickBarsGo_shape (T : Int) (trades : List Trade) :
    ∀ ts bucket : List Trade,
      (∃ pre, trades = pre ++ bucket ++ ts) →
      ∀ bar ∈ buildTickBarsGo T ts bucket,
        ∃ pre b post, trades = pre ++ b ++ post ∧ b ≠ [] ∧
          bar = _make_tick_bar b T := by
  intro ts
  induction ts with
  | nil =>
    intro bucket _ bar hbar
    cases hbar
  | cons t ts ih =>
    intro bucket hpre bar hbar
    obtain ⟨pre, hpre⟩ := hpre
    have hstep : buildTickBarsGo T (t :: ts) bucket =
        if T ≤ ((bucket ++ [t]).length : Int) then
          _make_tick_bar (bucket ++ [t]) T :: buildTickBarsGo T ts []
        else buildTickBarsGo T ts (bucket ++ [t]) := rfl
    rw [hstep] at hbar
    by_cases hc : T ≤ ((bucket ++ [t]).length : Int)
    · rw [if_pos hc] at hbar
      rcases List.mem_cons.mp hbar with hb | hb
      · exact ⟨pre, bucket ++ [t], ts, by rw [hpre]; simp, by simp, hb⟩
      · exact ih [] ⟨pre ++ (bucket ++ [t]), by rw [hpre]; simp⟩ bar hb
    · rw [if_neg hc] at hbar
      exact ih (bucket ++ [t]) ⟨pre, by rw [hpre]; simp⟩ bar hbar

/-- Every volume bar comes from a nonempty bucket of consecutive trades. -/
theorem buildVolumeBarsGo_shape (θ : ℚ) (trades : List Trade) :
    ∀ ts bucket : List Trade, ∀ cum : ℚ,
      (∃ pre, trades = pre ++ bucket ++ ts) →
      ∀ bar ∈ buildVolumeBarsGo θ ts bucket cum,
        ∃ pre b post, trades = pre ++ b ++ post ∧ b ≠ [] ∧
          bar = _make_volume_bar b θ := by
  intro ts
  induction ts with
  | nil =>
    intro bucket cum _ bar hbar
    cases hbar
  | cons t ts ih =>
    intro bucket cum hpre bar hbar
    obtain ⟨pre, hpre⟩ := hpre
    have hstep : buildVolumeBarsGo θ (t :: ts) bucket cum =
        if θ ≤ cum + t.quantity then
          _make_volume_bar (bucket ++ [t]) θ ::
            buildVolumeBarsGo θ ts [] 0
        else buildVolumeBarsGo θ ts (bucket ++ [t]) (cum + t.quantity) := rfl
    rw [hstep] at hbar
    by_cases hc : θ ≤ cum + t.quantity
    · rw [if_pos hc] at hbar
      rcases List.mem_cons.mp hbar with hb | hb
      · exact ⟨pre, bucket ++ [t], ts, by rw [hpre]; simp, by simp, hb⟩
      · exact ih [] 0 ⟨pre ++ (bucket ++ [t]), by rw [hpre]; simp⟩ bar hb
    · rw [if_neg hc] at hbar
      exact ih (bucket ++ [t]) (cum + t.quantity)
        ⟨pre, by rw [hpre]; simp⟩ bar hbar

/-- Every dollar bar comes from a nonempty bucket of consecutive trades. -/
theorem buildDollarBarsGo_shape (θ : ℚ) (trades : List Trade) :
    ∀ ts bucket : List Trade, ∀ cum : ℚ,
      (∃ pre, trades = pre ++ bucket ++ ts) →
      ∀ bar ∈ buildDollarBarsGo θ ts bucket cum,
        ∃ pre b post, trades = pre ++ b ++ post ∧ b ≠ [] ∧
          bar = _make_dollar_bar b θ := by
  intro ts
  induction ts with
  | nil =>
    intro bucket cum _ bar hbar
    cases hbar
  | cons t ts ih =>
    intro bucket cum hpre bar hbar
    obtain ⟨pre, hpre⟩ := hpre
    have hstep : buildDollarBarsGo θ (t :: ts) bucket cum =
        if θ ≤ cum + t.price * t.quantity then
          _make_dollar_bar (bucket ++ [t]) θ ::
            buildDollarBarsGo θ ts [] 0
        else
          buildDollarBarsGo θ ts (bucket ++ [t])
            (cum + t.price * t.quantity) := rfl
    rw [hstep] at hbar
    by_cases hc : θ ≤ cum + t.price * t.quantity
    · rw [if_pos hc] at hbar
      rcases List.mem_cons.mp hbar with hb | hb
      · exact ⟨pre, bucket ++ [t], ts, by rw [hpre]; simp, by simp, hb⟩
      · exact ih [] 0 ⟨pre ++ (bucket ++ [t]), by rw [hpre]; simp⟩ bar hb
    · rw [if_neg hc] at hbar
      exact ih (bucket ++ [t]) (cum + t.price * t.quantity)
        ⟨pre, by rw [hpre]; simp⟩ bar hbar

/-- C5: every bar synthesized by the tick / volume / dollar aggregators from
chronologically ordered trades with nonnegative quantities satisfies
`low ≤ open ≤ high`, `low ≤ close ≤ high`, `volume ≥ 0`,
`trade_count ≥ 1` and `timestamp ≤ close_time`. -/
theorem bar_ohlc_invariants (trades : List Trade)
    (hsort : trades.Pairwise fun a c => a.timestamp ≤ c.timestamp)
    (hq : ∀ t ∈ trades, 0 ≤ t.quantity)
    (Tt : Int) (θv θd : ℚ) :
    (∀ bar ∈ build_tick_bars trades Tt,
      bar.low ≤ bar.«open» ∧ bar.«open» ≤ bar.high ∧
      bar.low ≤ bar.close ∧ bar.close ≤ bar.high ∧
      0 ≤ bar.volume ∧ 1 ≤ bar.trade_count ∧
      bar.timestamp ≤ bar.close_time) ∧
    (∀ bar ∈ build_volume_bars trades θv,
      bar.low ≤ bar.«open» ∧ bar.«open» ≤ bar.high ∧
      bar.low ≤ bar.close ∧ bar.close ≤ bar.high ∧
      0 ≤ bar.volume ∧ 1 ≤ bar.trade_count ∧
      bar.timestamp ≤ bar.close_time) ∧
    (∀ bar ∈ build_dollar_bars trades θd,
      bar.low ≤ bar.«open» ∧ bar.«open» ≤ bar.high ∧
      bar.low ≤ bar.close ∧ bar.close ≤ bar.high ∧
      0 ≤ bar.volume ∧ 1 ≤ bar.trade_count ∧
      bar.timestamp ≤ bar.close_time) := by
  have core : ∀ pre b post : List Trade, trades = pre ++ b ++ post → b ≠ [] →
      priceMin b ≤ b.headI.price ∧ b.headI.price ≤ priceMax b ∧
      priceMin b ≤ b.getLastI.price ∧ b.getLastI.price ≤ priceMax b ∧
      0 ≤ sumQty b ∧ 1 ≤ b.length ∧
      b.headI.timestamp ≤ b.getLastI.timestamp := by
    intro pre b post hdecomp hb
    have hsub := bucket_sublist hdecomp
    exact bucket_core_inv b hb (hsort.sublist hsub)
      (fun t ht => hq t (hsub.mem ht))
  refine ⟨?_, ?_, ?_⟩
  · intro bar hbar
    obtain ⟨pre, b, post, hdecomp, hb, rfl⟩ :=
      buildTickBarsGo_shape Tt trades trades [] ⟨[], by simp⟩ bar hbar
    obtain ⟨h1, h2, h3, h4, h5, h6, h7⟩ := core pre b post hdecomp hb
    exact ⟨h1, h2, h3, h4, h5, h6, h7⟩
  · intro bar hbar
    obtain ⟨pre, b, post, hdecomp, hb, rfl⟩ :=
      buildVolumeBarsGo_shape θv trades trades [] 0 ⟨[], by simp⟩ bar hbar
    obtain ⟨h1, h2, h3, h4, h5, h6, h7⟩ := core pre b post hdecomp hb
    exact ⟨h1, h2, h3, h4, h5, h6, h7⟩
  · intro bar hbar
    obtain ⟨pre, b, post, hdecomp, hb, rfl⟩ :=
      buildDollarBarsGo_shape θd trades trades [] 0 ⟨[], by simp⟩ bar hbar
    obtain ⟨h1, h2, h3, h4, h5, h6, h7⟩ := core pre b post hdecomp hb
    exact ⟨h1, h2, h3, h4, h5, h6, h7⟩

/-- Witness for C5: the first tick bar of the seven-trade fixture at
threshold 3 satisfies every invariant. -/
theorem bar_ohlc_invariants_witness :
    _make_tick_bar (scenarioTrades.take 3) 3 ∈
      build_tick_bars scenarioTrades 3 ∧
    ((_make_tick_bar (scenarioTrades.take 3) 3).low ≤
        (_make_tick_bar (scenarioTrades.take 3) 3).«open» ∧
      (_make_tick_bar (scenarioTrades.take 3) 3).«open» ≤
        (_make_tick_bar (scenarioTrades.take 3) 3).high ∧
      (_make_tick_bar (scenarioTrades.take 3) 3).low ≤
        (_make_tick_bar (scenarioTrades.take 3) 3).close ∧
      (_make_tick_bar (scenarioTrades.take 3) 3).close ≤
        (_make_tick_bar (scenarioTrades.take 3) 3).high ∧
      0 ≤ (_make_tick_bar (scenarioTrades.take 3) 3).volume ∧
      1 ≤ (_make_tick_bar (scenarioTrades.take 3) 3).trade_count ∧
      (_make_tick_bar (scenarioTrades.take 3) 3).timestamp ≤
        (_make_tick_bar (scenarioTrades.take 3) 3).close_time) := by
  have hlist : build_tick_bars scenarioTrades 3 =
      [_make_tick_bar (scenarioTrades.take 3) 3,
       _make_tick_bar ((scenarioTrades.drop 3).take 3) 3] := by
    norm_num [build_tick_bars, buildTickBarsGo, scenarioTrades, scenarioTrade]
  have hmem : _make_tick_bar (scenarioTrades.take 3) 3 ∈
      build_tick_bars scenarioTrades 3 := by
    rw [hlist]
    exact List.mem_cons_self _ _
  refine ⟨hmem, ?_⟩
  exact (bar_ohlc_invariants scenarioTrades
    (by simp [scenarioTrades, scenarioTrade, List.pairwise_cons]; norm_num)
    (by intro t ht; fin_cases ht <;> norm_num [scenarioTrade])
    3 4 10).1 _ hmem

theorem getLastI_eq_getLast {α : Type} [Inhabited α] {l : List α}
    (h : l ≠ []) : l.getLastI = l.getLast h := by
  rw [List.getLastI_eq_getLast? l, List.getLast?_eq_getLast_of_ne_nil h]

theorem mem_klinesInWindow {d : List RawKline} {c e : Int} {k : RawKline} :
    k ∈ klinesInWindow d c e ↔
      k ∈ d ∧ c ≤ k.open_time_ms ∧ k.open_time_ms ≤ e := by
  simp [klinesInWindow, List.mem_filter]

/-- Under the chronology assumption, no record closes later than the final
record of the dataset. -/
theorem close_le_getLastI_close {d : List RawKline} (hch : ChronoKlines d)
    (hne : d ≠ []) {k : RawKline} (hk : k ∈ d) :
    k.close_time_ms ≤ d.getLastI.close_time_ms := by
  obtain ⟨hoc, hpw⟩ := hch
  rw [getLastI_eq_getLast hne]
  have hsplit := List.dropLast_append_getLast hne
  rw [← hsplit] at hk hpw
  rcases List.mem_append.mp hk with h | h
  · have hrel := (List.pairwise_append.mp hpw).2.2 k h (d.getLast hne)
      (List.mem_singleton.mpr rfl)
    have := hoc (d.getLast hne) (List.getLast_mem hne)
    omega
  · rw [List.mem_singleton.mp h]

/-- Advancing the cursor to one past the close time of the last record of a
full page shifts the window by exactly that page: the pagination
cursor-advance rule skips nothing and repeats nothing. -/
theorem window_drop (d : List RawKline) (hch : ChronoKlines d) (P : Nat)
    (hP : 1 ≤ P) (c e : Int)
    (hlen : P ≤ (klinesInWindow d c e).length) :
    klinesInWindow d
        (((klinesInWindow d c e).take P).getLastI.close_time_ms + 1) e =
      (klinesInWindow d c e).drop P := by
  obtain ⟨hoc, hpw⟩ := hch
  have hsub : List.Sublist (klinesInWindow d c e) d := List.filter_sublist d
  have hpwl : (klinesInWindow d c e).Pairwise
      (fun a b => a.close_time_ms < b.open_time_ms) := hpw.sublist hsub
  have htake_ne : (klinesInWindow d c e).take P ≠ [] := by
    have hlen0 : ((klinesInWindow d c e).take P).length = P := by
      rw [List.length_take]
      omega
    intro h0
    rw [h0] at hlen0
    simp at hlen0
    omega
  have hLmem_take : ((klinesInWindow d c e).take P).getLastI ∈
      (klinesInWindow d c e).take P := getLastI_mem htake_ne
  have hLmem : ((klinesInWindow d c e).take P).getLastI ∈
      klinesInWindow d c e := List.mem_of_mem_take hLmem_take
  have hLwin := mem_klinesInWindow.mp hLmem
  have hLoc : ((klinesInWindow d c e).take P).getLastI.open_time_ms ≤
      ((klinesInWindow d c e).take P).getLastI.close_time_ms :=
    hoc _ hLwin.1
  -- rewrite the shifted window as a second filter over the first window
  have hkey : ∀ k ∈ d,
      (decide (((klinesInWindow d c e).take P).getLastI.close_time_ms + 1 ≤
          k.open_time_ms ∧ k.open_time_ms ≤ e)) =
        (decide (((klinesInWindow d c e).take P).getLastI.close_time_ms <
            k.open_time_ms) &&
          decide (c ≤ k.open_time_ms ∧ k.open_time_ms ≤ e)) := by
    intro k _
    rw [← Bool.decide_and, decide_eq_decide]
    constructor
    · intro ⟨h1, h2⟩
      exact ⟨by omega, by constructor <;> omega⟩
    · intro ⟨h1, ⟨h2, h3⟩⟩
      exact ⟨by omega, h3⟩
  have hstep1 : klinesInWindow d
      (((klinesInWindow d c e).take P).getLastI.close_time_ms + 1) e =
      (klinesInWindow d c e).filter fun k =>
        decide (((klinesInWindow d c e).take P).getLastI.close_time_ms <
          k.open_time_ms) := by
    rw [klinesInWindow, List.filter_congr hkey, klinesInWindow,
      ← List.filter_filter]
  rw [hstep1]
  -- split the window into the page and the remainder
  have hfail : ∀ x ∈ (klinesInWindow d c e).take P,
      ¬ (((klinesInWindow d c e).take P).getLastI.close_time_ms <
        x.open_time_ms) := by
    intro x hx
    have hxd : x ∈ d := hsub.mem (List.mem_of_mem_take hx)
    have hxoc := hoc x hxd
    rw [getLastI_eq_getLast htake_ne] at hLoc ⊢
    have hsplit := List.dropLast_append_getLast htake_ne
    rw [← hsplit] at hx
    have hpwt : ((klinesInWindow d c e).take P).Pairwise
        (fun a b => a.close_time_ms < b.open_time_ms) :=
      hpwl.sublist (List.take_sublist P _)
    rw [← hsplit] at hpwt
    rcases List.mem_append.mp hx with h | h
    · have hrel := (List.pairwise_append.mp hpwt).2.2 x h _
        (List.mem_singleton.mpr rfl)
      omega
    · rw [List.mem_singleton.mp h]
      omega
  have hhold : ∀ x ∈ (klinesInWindow d c e).drop P,
      ((klinesInWindow d c e).take P).getLastI.close_time_ms <
        x.open_time_ms := by
    intro x hx
    have hsplit := List.take_append_drop P (klinesInWindow d c e)
    have hpw2 := hpwl
    rw [← hsplit] at hpw2
    exact (List.pairwise_append.mp hpw2).2.2 _ hLmem_take x hx
  conv_lhs => rw [← List.take_append_drop P (klinesInWindow d c e)]
  rw [List.filter_append,
    List.filter_eq_nil_iff.mpr (by
      intro a ha
      simpa using hfail a ha),
    List.filter_eq_self.mpr (by
      intro a ha
      simpa using hhold a ha),
    List.nil_append]

/-- With enough fuel, the records emitted by the pagination loop from any
cursor are exactly the dataset records in the remaining window (the loop is
gap-free and duplicate-free), provided every record opens strictly before
the end instant. -/
theorem fetchKlinesGo_records (d : List RawKline) (hch : ChronoKlines d)
    (P : Nat) (hP : 1 ≤ P) (e : Int)
    (hopen : ∀ k ∈ d, k.open_time_ms < e) :
    ∀ fuel c, (klinesInWindow d c e).length < fuel →
      (fetchKlinesGo d P e fuel c).1 = klinesInWindow d c e := by
  intro fuel
  induction fuel with
  | zero => intro c h; exact absurd h (Nat.not_lt_zero _)
  | succ fuel ih =>
    intro c hfuel
    have hstep : fetchKlinesGo d P e (fuel + 1) c =
        if c < e then
          if (serveKlines d c e P).length < P then
            (serveKlines d c e P, [(serveKlines d c e P).length])
          else
            (serveKlines d c e P ++
              (fetchKlinesGo d P e fuel
                ((serveKlines d c e P).getLastI.close_time_ms + 1)).1,
             (serveKlines d c e P).length ::
              (fetchKlinesGo d P e fuel
                ((serveKlines d c e P).getLastI.close_time_ms + 1)).2)
        else ([], []) := rfl
    by_cases hc : c < e
    · rw [hstep, if_pos hc]
      by_cases hshort : (serveKlines d c e P).length < P
      · rw [if_pos hshort]
        have hlt : (klinesInWindow d c e).length < P := by
          rw [serveKlines, List.length_take] at hshort
          omega
        exact List.take_of_length_le (le_of_lt hlt)
      · rw [if_neg hshort]
        have hlen : P ≤ (klinesInWindow d c e).length := by
          rw [serveKlines, List.length_take] at hshort
          omega
        have hwd := window_drop d hch P hP c e hlen
        have hrest : (fetchKlinesGo d P e fuel
            ((serveKlines d c e P).getLastI.close_time_ms + 1)).1 =
            (klinesInWindow d c e).drop P := by
          rw [show serveKlines d c e P = (klinesInWindow d c e).take P from
            rfl, ← hwd]
          apply ih
          rw [hwd, List.length_drop]
          omega
        rw [show (serveKlines d c e P ++
            (fetchKlinesGo d P e fuel
              ((serveKlines d c e P).getLastI.close_time_ms + 1)).1,
            (serveKlines d c e P).length ::
              (fetchKlinesGo d P e fuel
                ((serveKlines d c e P).getLastI.close_time_ms + 1)).2).1 =
            serveKlines d c e P ++
              (fetchKlinesGo d P e fuel
                ((serveKlines d c e P).getLastI.close_time_ms + 1)).1 from
          rfl, hrest]
        exact List.take_append_drop P (klinesInWindow d c e)
    · rw [hstep, if_neg hc]
      have : klinesInWindow d c e = [] := by
        apply List.filter_eq_nil_iff.mpr
        intro k hk
        have := hopen k hk
        simp only [decide_eq_true_eq, not_and]
        intro h1
        omega
      rw [this]

/-- C1 (amended): for a chronological dataset, any page capacity `P ≥ 1`
and any range whose end instant lies strictly after every record's open
time, the paginating fetch emits exactly the sequence of one unpaged fetch
over the same range — no repeats, no gaps.  (The amendment excludes the
boundary case of a record opening exactly at the end instant, where the
paginated fetch can drop the record: see the counterexample.) -/
theorem pagination_gap_dup_freedom (d : List RawKline) (P : Nat)
    (startMs endMs : Int) (hP : 1 ≤ P) (hch : ChronoKlines d)
    (hopen : ∀ k ∈ d, k.open_time_ms < endMs) :
    (fetch_klines d P startMs endMs).1 =
      singleUnpagedFetch d startMs endMs := by
  have h := fetchKlinesGo_records d hch P hP endMs hopen (d.length + 1)
    startMs (lt_of_le_of_lt (List.length_filter_le _ _) (Nat.lt_succ_self _))
  rw [fetch_klines, h, singleUnpagedFetch]
  by_cases hse : startMs < endMs
  · rw [if_pos hse]
  · rw [if_neg hse]
    apply List.filter_eq_nil_iff.mpr
    intro k hk
    have := hopen k hk
    simp only [decide_eq_true_eq, not_and]
    intro h1
    omega

/-- The claim as stated is false at the boundary: with records closing at 0
and 1 (opening at 0 and 1), page capacity 1 and range [0, 1], the paginated
fetch advances its cursor to 1 after the first page and the `cursor < end`
guard stops it, dropping the record that opens exactly at the end instant,
while the single unpaged fetch over the same inclusive range returns it. -/
theorem pagination_gap_dup_freedom_cex :
    ChronoKlines klineCexData ∧
    (fetch_klines klineCexData 1 0 1).1 = [mkFixtureKline 0 0] ∧
    singleUnpagedFetch klineCexData 0 1 =
      [mkFixtureKline 0 0, mkFixtureKline 1 1] ∧
    (fetch_klines klineCexData 1 0 1).1 ≠
      singleUnpagedFetch klineCexData 0 1 := by
  refine ⟨⟨?_, ?_⟩, by rfl, by rfl, by decide⟩
  · intro k hk
    fin_cases hk <;> decide
  · decide

/-- Witness for C1: the spec's own fixture — a 10-record dataset paged with
capacity 3 — matches the unpaged fetch. -/
theorem pagination_gap_dup_freedom_witness :
    ChronoKlines fixture10 ∧
    (fetch_klines fixture10 3 0 1000).1 = singleUnpagedFetch fixture10 0 1000 :=
  ⟨by constructor
      · intro k hk
        fin_cases hk <;> decide
      · decide,
   pagination_gap_dup_freedom fixture10 3 0 1000 (by norm_num)
     ⟨by intro k hk; fin_cases hk <;> decide, by decide⟩
     (by intro k hk; fin_cases hk <;> decide)⟩

/-- Request-size trace of the pagination loop over a dataset that fills its
window in exact multiples of the page capacity: each of the `m'` remaining
full pages issues one request of exactly `P` records, then one final request
returns zero records. -/
theorem fetchKlinesGo_sizes (d : List RawKline) (hch : ChronoKlines d)
    (P : Nat) (hP : 1 ≤ P) (e : Int) (hne : d ≠ [])
    (hlast : d.getLastI.close_time_ms + 1 < e) (m : Nat)
    (hlen : d.length = m * P) :
    ∀ m', m' ≤ m → ∀ c fuel, m' + 1 ≤ fuel → c < e →
      klinesInWindow d c e = d.drop ((m - m') * P) →
      (fetchKlinesGo d P e fuel c).2 = List.replicate m' P ++ [0] := by
  intro m'
  induction m' with
  | zero =>
    intro _ c fuel hfuel hc hwin
    cases fuel with
    | zero => omega
    | succ fuel =>
      have hwin0 : klinesInWindow d c e = [] := by
        rw [hwin, Nat.sub_zero, ← hlen]
        exact List.drop_length d
      have hstep : fetchKlinesGo d P e (fuel + 1) c =
          if c < e then
            if (serveKlines d c e P).length < P then
              (serveKlines d c e P, [(serveKlines d c e P).length])
            else
              (serveKlines d c e P ++
                (fetchKlinesGo d P e fuel
                  ((serveKlines d c e P).getLastI.close_time_ms + 1)).1,
               (serveKlines d c e P).length ::
                (fetchKlinesGo d P e fuel
                  ((serveKlines d c e P).getLastI.close_time_ms + 1)).2)
          else ([], []) := rfl
      have hserve : serveKlines d c e P = [] := by
        rw [serveKlines, hwin0, List.take_nil]
      rw [hstep, if_pos hc, if_pos (by rw [hserve]; simpa using hP), hserve]
      rfl
  | succ m' ih =>
    intro hm'm c fuel hfuel hc hwin
    cases fuel with
    | zero => omega
    | succ fuel =>
      have hdroplen : (klinesInWindow d c e).length = (m' + 1) * P := by
        rw [hwin, List.length_drop, hlen]
        have hsub : m - (m' + 1) ≤ m := Nat.sub_le m (m' + 1)
        rw [← Nat.sub_mul]
        congr 1
        omega
      have hlenP : P ≤ (klinesInWindow d c e).length := by
        rw [hdroplen, Nat.succ_mul]
        omega
      have hserve_len : ¬ (serveKlines d c e P).length < P := by
        rw [serveKlines, List.length_take]
        omega
      have hstep : fetchKlinesGo d P e (fuel + 1) c =
          if c < e then
            if (serveKlines d c e P).length < P then
              (serveKlines d c e P, [(serveKlines d c e P).length])
            else
              (serveKlines d c e P ++
                (fetchKlinesGo d P e fuel
                  ((serveKlines d c e P).getLastI.close_time_ms + 1)).1,
               (serveKlines d c e P).length ::
                (fetchKlinesGo d P e fuel
                  ((serveKlines d c e P).getLastI.close_time_ms + 1)).2)
          else ([], []) := rfl
      rw [hstep, if_pos hc, if_neg hserve_len]
      -- the closing record of this page is a record of the dataset
      have htake_ne : (klinesInWindow d c e).take P ≠ [] := by
        have h0 : ((klinesInWindow d c e).take P).length = P := by
          rw [List.length_take]
          omega
        intro hnil
        rw [hnil] at h0
        simp at h0
        omega
      have hLmem : ((klinesInWindow d c e).take P).getLastI ∈ d :=
        (List.filter_sublist d).mem
          (List.mem_of_mem_take (getLastI_mem htake_ne))
      have hcursor' :
          ((klinesInWindow d c e).take P).getLastI.close_time_ms + 1 < e := by
        have := close_le_getLastI_close hch hne hLmem
        omega
      have hwin' : klinesInWindow d
          (((klinesInWindow d c e).take P).getLastI.close_time_ms + 1) e =
          d.drop ((m - m') * P) := by
        rw [window_drop d hch P hP c e hlenP, hwin, List.drop_drop]
        congr 1
        have h1 : m - m' = (m - (m' + 1)) + 1 := by omega
        rw [h1, Nat.succ_mul]
      have hrest := ih (by omega)
        (((klinesInWindow d c e).take P).getLastI.close_time_ms + 1) fuel
        (by omega) hcursor' hwin'
      rw [show serveKlines d c e P = (klinesInWindow d c e).take P from rfl]
      show ((klinesInWindow d c e).take P).length ::
          (fetchKlinesGo d P e fuel
            (((klinesInWindow d c e).take P).getLastI.close_time_ms + 1)).2 =
        List.replicate (m' + 1) P ++ [0]
      rw [hrest, List.replicate_succ, List.cons_append, List.length_take]
      congr 1
      omega

/-- C6: a chronological dataset that fills the whole range with exactly
`m·P` records (the range still open past the last close) costs exactly
`m + 1` transport requests — `m` full pages of `P` records and one final
request returning zero records. -/
theorem pagination_exact_multiple (d : List RawKline) (P m : Nat)
    (startMs endMs : Int) (hP : 1 ≤ P) (_hm : 1 ≤ m) (hch : ChronoKlines d)
    (hne : d ≠ [])
    (hwin : ∀ k ∈ d, startMs ≤ k.open_time_ms ∧ k.open_time_ms ≤ endMs)
    (hlen : d.length = m * P)
    (hlast : d.getLastI.close_time_ms + 1 < endMs) :
    (fetch_klines d P startMs endMs).2 = List.replicate m P ++ [0] ∧
    (fetch_klines d P startMs endMs).2.length = m + 1 ∧
    (fetch_klines d P startMs endMs).2.getLast? = some 0 := by
  have hwin0 : klinesInWindow d startMs endMs = d.drop ((m - m) * P) := by
    rw [Nat.sub_self, Nat.zero_mul, List.drop_zero]
    apply List.filter_eq_self.mpr
    intro k hk
    simpa using hwin k hk
  have hstart : startMs < endMs := by
    have hh := hwin d.headI (headI_mem hne)
    have hoc := hch.1 d.headI (headI_mem hne)
    have hcl := close_le_getLastI_close hch hne (headI_mem hne)
    omega
  have hfuel : m + 1 ≤ d.length + 1 := by
    have : m ≤ m * P := Nat.le_mul_of_pos_right m hP
    omega
  have h := fetchKlinesGo_sizes d hch P hP endMs hne hlast m hlen m
    (le_refl m) startMs (d.length + 1) hfuel hstart hwin0
  refine ⟨h, ?_, ?_⟩
  · show (fetchKlinesGo d P endMs (d.length + 1) startMs).2.length = m + 1
    rw [h]
    simp
  · show (fetchKlinesGo d P endMs (d.length + 1) startMs).2.getLast? = some 0
    rw [h]
    exact List.getLast?_concat _

/-- Witness for C6: six records, page capacity 3, yields request trace
`[3, 3, 0]` — exactly `6/3 + 1 = 3` requests, the last empty. -/
theorem pagination_exact_multiple_witness :
    ChronoKlines fixture6 ∧
    (fetch_klines fixture6 3 0 1000).2 = List.replicate 2 3 ++ [0] ∧
    (fetch_klines fixture6 3 0 1000).2.length = 2 + 1 :=
  ⟨⟨by intro k hk; fin_cases hk <;> decide, by decide⟩,
   (pagination_exact_multiple fixture6 3 2 0 1000 (by norm_num) (by norm_num)
     ⟨by intro k hk; fin_cases hk <;> decide, by decide⟩ (by decide)
     (by intro k hk; fin_cases hk <;> decide) (by decide) (by decide)).1,
   ((pagination_exact_multiple fixture6 3 2 0 1000 (by norm_num) (by norm_num)
     ⟨by intro k hk; fin_cases hk <;> decide, by decide⟩ (by decide)
     (by intro k hk; fin_cases hk <;> decide) (by decide) (by decide)).2).1⟩

/-- C4 (amended): kline fetches with `start ≥ end` yield the empty sequence
and issue no transport request at all; the funding-rate fetch, however, has
no empty-range guard (`while True`), so with `start > end` it still issues
exactly one request — which returns zero records — and only then yields the
empty sequence. -/
theorem empty_range_behavior (d : List RawKline) (fd : List RawFundingRate)
    (P : Nat) (startMs endMs : Int) (hP : 1 ≤ P) (hse : endMs ≤ startMs) :
    (fetch_klines d P startMs endMs).1 = [] ∧
    (fetch_klines d P startMs endMs).2 = [] ∧
    (endMs < startMs →
      (fetch_funding_rates fd P startMs (some endMs)).1 = [] ∧
      (fetch_funding_rates fd P startMs (some endMs)).2 = [0]) := by
  have hk : fetch_klines d P startMs endMs = ([], []) := by
    show (if startMs < endMs then _ else (([], []) : List RawKline × List Nat))
      = ([], [])
    rw [if_neg (not_lt.mpr hse)]
  refine ⟨by rw [hk], by rw [hk], ?_⟩
  intro hlt
  have hserve : serveFunding fd startMs (some endMs) P = [] := by
    rw [serveFunding]
    rw [List.filter_eq_nil_iff.mpr ?_]
    · exact List.take_nil
    · intro r _
      simp only [Bool.and_eq_true, decide_eq_true_eq, not_and]
      intro h1
      omega
  have hf : fetch_funding_rates fd P startMs (some endMs) = ([], [0]) := by
    show (if (serveFunding fd startMs (some endMs) P).length < P then
        (serveFunding fd startMs (some endMs) P,
          [(serveFunding fd startMs (some endMs) P).length])
      else _) = ([], [0])
    rw [if_pos (by rw [hserve]; simpa using hP), hserve]
    rfl
  exact ⟨by rw [hf], by rw [hf]⟩

/-- The claim as stated is false for the funding-rate fetch: with
`start = end = 5` (so `start ≥ end`) the `while True` loop still issues one
request, and a settlement record at exactly that instant is even returned —
the result is neither "empty" nor produced with "no request issued". -/
theorem empty_range_behavior_cex :
    (fetch_funding_rates fundingFixture 2 5 (some 5)).2.length = 1 ∧
    (fetch_funding_rates fundingFixture 2 5 (some 5)).1 =
      [{ symbol := "BTCUSDT", funding_time_ms := 5, funding_rate := "0.0001",
         mark_price := "1" }] :=
  ⟨rfl, rfl⟩

/-- Witness for C4 at `start = 7 > end = 5`: klines issue nothing, the
funding-rate fetch issues exactly one empty request. -/
theorem empty_range_behavior_witness :
    (fetch_klines fixture10 3 7 5).1 = [] ∧
    (fetch_klines fixture10 3 7 5).2 = [] ∧
    (fetch_funding_rates fundingFixture 3 7 (some 5)).1 = [] ∧
    (fetch_funding_rates fundingFixture 3 7 (some 5)).2 = [0] := by
  have h := empty_range_behavior fixture10 fundingFixture 3 7 5 (by norm_num)
    (by norm_num)
  exact ⟨h.1, h.2.1, (h.2.2 (by norm_num)).1, (h.2.2 (by norm_num)).2⟩

theorem digitVal_lt_ten {c : Char} (h : c.isDigit = true) : digitVal c < 10 := by
  simp [Char.isDigit] at h
  obtain ⟨_, h2⟩ := h
  have g2 : c.val.toNat ≤ 57 := UInt32.le_def.mp h2
  have g0 : '0'.toNat = 48 := rfl
  have g1 : c.toNat = c.val.toNat := rfl
  show c.toNat - '0'.toNat < 10
  omega

theorem digitVal_digitChar {d : Nat} (h : d < 10) :
    digitVal (digitChar d) = d := by
  interval_cases d <;> rfl

theorem isDigit_digitChar {d : Nat} (h : d < 10) :
    (digitChar d).isDigit = true := by
  interval_cases d <;> rfl

theorem digit_ne_sign {c : Char} (h : c.isDigit = true) :
    c ≠ '-' ∧ c ≠ '+' := by
  constructor <;> rintro rfl <;> simp at h

theorem splitSignChars_of_digit {c : Char} (h : c.isDigit = true)
    (rest : List Char) : splitSignChars (c :: rest) = (false, c :: rest) := by
  obtain ⟨h1, h2⟩ := digit_ne_sign h
  simp [splitSignChars, h1, h2]

theorem renderDigits_all_digit {ds : List Nat} (h : ∀ x ∈ ds, x < 10) :
    ∀ c ∈ renderDigits ds, c.isDigit = true := by
  intro c hc
  obtain ⟨x, hx, rfl⟩ := List.mem_map.mp hc
  exact isDigit_digitChar (h x hx)

theorem map_digitVal_renderDigits {ds : List Nat} (h : ∀ x ∈ ds, x < 10) :
    (renderDigits ds).map digitVal = ds := by
  rw [renderDigits, List.map_map]
  conv_rhs => rw [← List.map_id ds]
  apply List.map_congr_left
  intro x hx
  exact digitVal_digitChar (h x hx)

theorem stripLeadingZeros_cons_zero (t : List Nat) :
    stripLeadingZeros (0 :: t) = stripLeadingZeros t := by
  simp [stripLeadingZeros, List.dropWhile]

theorem stripLeadingZeros_WF {ds : List Nat} (h : ∀ x ∈ ds, x < 10) :
    DigitsWF (stripLeadingZeros ds) := by
  rw [stripLeadingZeros]
  cases hdw : ds.dropWhile (· = 0) with
  | nil => exact ⟨by simp, by simp, by simp⟩
  | cons a t =>
    have ha : a ≠ 0 := by
      have := List.head?_dropWhile_not (· = 0) ds
      rw [hdw] at this
      simpa using this
    have hsub : ∀ x ∈ a :: t, x < 10 := by
      intro x hx
      exact h x ((List.dropWhile_sublist _).mem (hdw ▸ hx))
    exact ⟨by simp, hsub, by simp [ha]⟩

theorem stripLeadingZeros_of_WF {ds : List Nat} (h : DigitsWF ds) :
    stripLeadingZeros ds = ds := by
  obtain ⟨hne, _, hz⟩ := h
  cases ds with
  | nil => exact absurd rfl hne
  | cons a t =>
    by_cases ha : a = 0
    · subst ha
      have := hz rfl
      rw [this]
      rfl
    · simp [stripLeadingZeros, List.dropWhile, ha]

theorem stripLeadingZeros_replicate_append (k : Nat) {ds : List Nat}
    (h : DigitsWF ds) :
    stripLeadingZeros (List.replicate k 0 ++ ds) = ds := by
  induction k with
  | zero => simpa using stripLeadingZeros_of_WF h
  | succ k ih =>
    rw [List.replicate_succ, List.cons_append, stripLeadingZeros_cons_zero]
    exact ih

theorem spanDigits_exact {l r : List Char} (hl : ∀ c ∈ l, c.isDigit = true)
    (hr : ∀ c, r.head? = some c → c.isDigit = false) :
    spanDigits (l ++ r) = (l, r) := by
  induction l with
  | nil =>
    cases r with
    | nil => rfl
    | cons c t =>
      have := hr c rfl
      simp [spanDigits, List.takeWhile, List.dropWhile, this]
  | cons c l ih =>
    have hc := hl c (List.mem_cons_self c l)
    have ih' := ih fun x hx => hl x (List.mem_cons_of_mem c hx)
    simp only [spanDigits, List.cons_append, List.takeWhile_cons,
      List.dropWhile_cons, hc, if_true, Prod.mk.injEq] at ih' ⊢
    exact ⟨by rw [ih'.1], by rw [ih'.2]⟩

theorem natDigitsF_congr : ∀ f1 n f2 : Nat, n ≤ f1 → n ≤ f2 →
    natDigitsF f1 n = natDigitsF f2 n := by
  intro f1
  induction f1 with
  | zero =>
    intro n f2 h1 _
    have : n = 0 := by omega
    subst this
    cases f2 with
    | zero => rfl
    | succ f2 => simp [natDigitsF]
  | succ f1 ih =>
    intro n f2 h1 h2
    by_cases hn : n < 10
    · cases f2 with
      | zero =>
        have : n = 0 := by omega
        subst this
        simp [natDigitsF]
      | succ f2 => simp [natDigitsF, hn]
    · cases f2 with
      | zero => omega
      | succ f2 =>
        have hd : n / 10 ≤ f1 ∧ n / 10 ≤ f2 := by
          constructor <;> [skip; skip] <;>
            · have := Nat.div_lt_self (show 0 < n by omega)
                (show 1 < 10 by omega)
              omega
        simp only [natDigitsF, if_neg hn]
        rw [ih (n / 10) f2 hd.1 hd.2]

theorem natDigits_lt {n : Nat} (h : n < 10) : natDigits n = [n] := by
  cases n with
  | zero => rfl
  | succ k => simp [natDigits, natDigitsF, h]

theorem natDigits_ge {n : Nat} (h : 10 ≤ n) :
    natDigits n = natDigits (n / 10) ++ [n % 10] := by
  have hn : n ≠ 0 := by omega
  obtain ⟨f, rfl⟩ := Nat.exists_eq_succ_of_ne_zero hn
  show natDigitsF (f + 1) (f + 1) = _
  rw [show natDigitsF (f + 1) (f + 1) =
    natDigitsF f ((f + 1) / 10) ++ [(f + 1) % 10] from by
      simp [natDigitsF, Nat.not_lt.mpr h]]
  congr 1
  apply natDigitsF_congr
  · have := Nat.div_lt_self (show 0 < f + 1 by omega) (show 1 < 10 by omega)
    omega
  · exact le_refl _

theorem natFromDigits_append (l : List Nat) (x : Nat) :
    natFromDigits (l ++ [x]) = 10 * natFromDigits l + x := by
  simp [natFromDigits, List.foldl_append]
  ring

theorem natFromDigits_natDigits (n : Nat) :
    natFromDigits (natDigits n) = n := by
  induction n using Nat.strong_induction_on with
  | _ n ih =>
    by_cases h : n < 10
    · rw [natDigits_lt h]
      simp [natFromDigits]
    · rw [natDigits_ge (by omega), natFromDigits_append,
        ih (n / 10) (Nat.div_lt_self (by omega) (by omega))]
      omega

theorem natDigits_all_lt_ten (n : Nat) : ∀ x ∈ natDigits n, x < 10 := by
  induction n using Nat.strong_induction_on with
  | _ n ih =>
    by_cases h : n < 10
    · rw [natDigits_lt h]
      simpa using h
    · rw [natDigits_ge (by omega)]
      intro x hx
      rcases List.mem_append.mp hx with h1 | h1
      · exact ih (n / 10) (Nat.div_lt_self (by omega) (by omega)) x h1
      · rw [List.mem_singleton.mp h1]
        exact Nat.mod_lt n (by omega)

theorem natDigits_ne_nil (n : Nat) : natDigits n ≠ [] := by
  by_cases h : n < 10
  · rw [natDigits_lt h]
    simp
  · rw [natDigits_ge (by omega)]
    simp

theorem spanDigits_all {l : List Char} (hl : ∀ c ∈ l, c.isDigit = true) :
    spanDigits l = (l, []) := by
  conv_lhs => rw [← List.append_nil l]
  exact spanDigits_exact hl (fun c hc => absurd hc (by simp))

theorem parseExpPart_renderExpPart (adj : Int) :
    parseExpPart (renderExpPart adj) = some adj := by
  have hspan := spanDigits_all
    (renderDigits_all_digit (natDigits_all_lt_ten adj.natAbs))
  have hne : (renderDigits (natDigits adj.natAbs)).isEmpty = false := by
    rw [List.isEmpty_eq_false]
    simp [renderDigits]
    exact natDigits_ne_nil _
  have hne' : renderDigits (natDigits adj.natAbs) ≠ [] :=
    List.isEmpty_eq_false.mp hne
  by_cases hadj : adj < 0 <;>
    · simp only [renderExpPart, hadj, if_pos, if_neg, ite_true, ite_false,
        parseExpPart, splitSignChars, reduceIte, hspan, hne]
      simp [hspan, hne',
        map_digitVal_renderDigits (natDigits_all_lt_ten adj.natAbs),
        natFromDigits_natDigits, -Int.natCast_natAbs]
      omega

theorem parseExpPart_render (adj : Int) :
    parseExpPart ('E' :: (if adj < 0 then '-' else '+') ::
      renderDigits (natDigits adj.natAbs)) = some adj := by
  have h := parseExpPart_renderExpPart adj
  rwa [renderExpPart] at h

theorem mkParsedDec_eval {tl : List Char} {e : Int}
    (htl : parseExpPart tl = some e) (sg : Bool) (ip fp : List Char) :
    mkParsedDec sg ip fp tl =
      some ⟨sg, stripLeadingZeros ((ip ++ fp).map digitVal),
        e - fp.length⟩ := by
  simp [mkParsedDec, htl]

theorem renderDigits_isEmpty_false {ds : List Nat} (h : ds ≠ []) :
    (renderDigits ds).isEmpty = false := by
  cases ds with
  | nil => exact absurd rfl h
  | cons a t => rfl

theorem length_renderDigits (ds : List Nat) :
    (renderDigits ds).length = ds.length := by
  simp [renderDigits]

/-- Plain rendering with exponent zero parses back to the same decimal. -/
theorem parseMantissaExp_plain_zero {ds : List Nat} (hwf : DigitsWF ds)
    (sg : Bool) :
    parseMantissaExp sg (renderDigits ds) = some ⟨sg, ds, 0⟩ := by
  obtain ⟨hne, hlt, hz⟩ := hwf
  have hspan := spanDigits_all (renderDigits_all_digit hlt)
  have hie := renderDigits_isEmpty_false hne
  rw [parseMantissaExp]
  simp only [hspan]
  rw [if_neg (by rw [hie]; exact Bool.false_ne_true)]
  rw [mkParsedDec_eval (show parseExpPart [] = some 0 from rfl)]
  rw [List.append_nil, map_digitVal_renderDigits hlt,
    stripLeadingZeros_of_WF ⟨hne, hlt, hz⟩]
  simp

/-- Plain rendering of a value smaller than one (`0.00…0⟨digits⟩`) parses
back to the same digits with exponent `-(k + |digits|)`. -/
theorem parseMantissaExp_plain_small {ds : List Nat} (hwf : DigitsWF ds)
    (k : Nat) (sg : Bool) :
    parseMantissaExp sg
      ('0' :: '.' :: (List.replicate k '0' ++ renderDigits ds)) =
      some ⟨sg, ds, -((k : Int) + ds.length)⟩ := by
  obtain ⟨hne, hlt, hz⟩ := hwf
  have hXall : ∀ c ∈ List.replicate k '0' ++ renderDigits ds,
      c.isDigit = true := by
    intro c hc
    rcases List.mem_append.mp hc with h | h
    · rw [List.eq_of_mem_replicate h]; rfl
    · exact renderDigits_all_digit hlt c h
  have hspan1 : spanDigits
      ('0' :: '.' :: (List.replicate k '0' ++ renderDigits ds)) =
      (['0'], '.' :: (List.replicate k '0' ++ renderDigits ds)) := by
    rw [show ('0' :: '.' :: (List.replicate k '0' ++ renderDigits ds)) =
      ['0'] ++ ('.' :: (List.replicate k '0' ++ renderDigits ds)) from rfl]
    apply spanDigits_exact
    · intro c hc
      rw [List.mem_singleton.mp hc]
      rfl
    · intro c hc
      simp at hc
      subst hc
      rfl
  have hspan2 := spanDigits_all hXall
  rw [parseMantissaExp]
  simp only [hspan1, hspan2]
  rw [if_neg (by simp)]
  rw [mkParsedDec_eval (show parseExpPart [] = some 0 from rfl)]
  have hmap : (['0'] ++ (List.replicate k '0' ++ renderDigits ds)).map
      digitVal = List.replicate (k + 1) 0 ++ ds := by
    rw [List.map_append, List.map_append, map_digitVal_renderDigits hlt,
      List.map_replicate]
    rw [show List.map digitVal ['0'] = [0] from rfl,
      show digitVal '0' = 0 from rfl,
      show List.replicate (k + 1) 0 = 0 :: List.replicate k 0 from
        List.replicate_succ 0 k]
    rfl
  rw [hmap, stripLeadingZeros_replicate_append (k + 1) ⟨hne, hlt, hz⟩]
  simp [length_renderDigits]

/-- Plain rendering with the decimal point inside the digits parses back to
the same digits with exponent `-(|digits| - m)`. -/
theorem parseMantissaExp_plain_split {ds : List Nat} (hwf : DigitsWF ds)
    {m : Nat} (hm : 1 ≤ m) (sg : Bool) :
    parseMantissaExp sg
      (renderDigits (ds.take m) ++ '.' :: renderDigits (ds.drop m)) =
      some ⟨sg, ds, -((ds.length - m : Nat) : Int)⟩ := by
  obtain ⟨hne, hlt, hz⟩ := hwf
  have htake_all : ∀ c ∈ renderDigits (ds.take m), c.isDigit = true :=
    renderDigits_all_digit fun x hx => hlt x (List.mem_of_mem_take hx)
  have hdrop_all : ∀ c ∈ renderDigits (ds.drop m), c.isDigit = true :=
    renderDigits_all_digit fun x hx => hlt x (List.mem_of_mem_drop hx)
  have hspan1 : spanDigits
      (renderDigits (ds.take m) ++ '.' :: renderDigits (ds.drop m)) =
      (renderDigits (ds.take m), '.' :: renderDigits (ds.drop m)) := by
    apply spanDigits_exact htake_all
    intro c hc
    simp at hc
    subst hc
    rfl
  have hspan2 := spanDigits_all hdrop_all
  have htakene : ds.take m ≠ [] := by
    cases ds with
    | nil => exact absurd rfl hne
    | cons a t =>
      cases m with
      | zero => omega
      | succ m => simp
  rw [parseMantissaExp]
  simp only [hspan1, hspan2]
  rw [if_neg (by
    rw [renderDigits_isEmpty_false htakene]
    simp)]
  rw [mkParsedDec_eval (show parseExpPart [] = some 0 from rfl)]
  rw [show renderDigits (ds.take m) ++ renderDigits (ds.drop m) =
      renderDigits (ds.take m ++ ds.drop m) from by simp [renderDigits],
    List.take_append_drop, map_digitVal_renderDigits hlt,
    stripLeadingZeros_of_WF ⟨hne, hlt, hz⟩]
  simp [length_renderDigits]

/-- Scientific rendering of a one-digit coefficient parses back exactly. -/
theorem parseMantissaExp_sci_single {d0 : Nat} (hd0 : d0 < 10) (adj : Int)
    (sg : Bool) :
    parseMantissaExp sg
      (digitChar d0 :: 'E' :: (if adj < 0 then '-' else '+') ::
        renderDigits (natDigits adj.natAbs)) =
      some ⟨sg, [d0], adj⟩ := by
  have hwf : DigitsWF [d0] := ⟨by simp, by simpa using hd0, by
    intro h
    simp at h
    rw [h]⟩
  have hspan1 : spanDigits
      (digitChar d0 :: 'E' :: (if adj < 0 then '-' else '+') ::
        renderDigits (natDigits adj.natAbs)) =
      ([digitChar d0], 'E' :: (if adj < 0 then '-' else '+') ::
        renderDigits (natDigits adj.natAbs)) := by
    rw [show (digitChar d0 :: 'E' :: (if adj < 0 then '-' else '+') ::
        renderDigits (natDigits adj.natAbs)) =
      [digitChar d0] ++ ('E' :: (if adj < 0 then '-' else '+') ::
        renderDigits (natDigits adj.natAbs)) from rfl]
    apply spanDigits_exact
    · intro c hc
      rw [List.mem_singleton.mp hc]
      exact isDigit_digitChar hd0
    · intro c hc
      simp at hc
      subst hc
      rfl
  rw [parseMantissaExp]
  simp only [hspan1]
  split
  · rename_i rest heq
    exact absurd heq (by simp)
  · rw [if_neg (by simp)]
    rw [mkParsedDec_eval (parseExpPart_render adj)]
    rw [List.append_nil,
      show List.map digitVal [digitChar d0] = [d0] from by
        simp [digitVal_digitChar hd0],
      stripLeadingZeros_of_WF hwf]
    simp

/-- Scientific rendering of a multi-digit coefficient parses back exactly. -/
theorem parseMantissaExp_sci_multi {d0 : Nat} {rest : List Nat}
    (hwf : DigitsWF (d0 :: rest)) (adj : Int) (sg : Bool) :
    parseMantissaExp sg
      (digitChar d0 :: '.' :: (renderDigits rest ++ renderExpPart adj)) =
      some ⟨sg, d0 :: rest, adj - rest.length⟩ := by
  obtain ⟨hne, hlt, hz⟩ := hwf
  have hd0 : d0 < 10 := hlt d0 (List.mem_cons_self d0 rest)
  have hrest_all : ∀ c ∈ renderDigits rest, c.isDigit = true :=
    renderDigits_all_digit fun x hx => hlt x (List.mem_cons_of_mem d0 hx)
  have hEhead : ∀ c : Char, (renderExpPart adj).head? = some c →
      c.isDigit = false := by
    intro c hc
    rw [show (renderExpPart adj).head? = some 'E' from rfl] at hc
    rw [← Option.some.inj hc]
    rfl
  have hspan1 : spanDigits
      (digitChar d0 :: '.' :: (renderDigits rest ++ renderExpPart adj)) =
      ([digitChar d0], '.' :: (renderDigits rest ++ renderExpPart adj)) := by
    rw [show (digitChar d0 :: '.' :: (renderDigits rest ++
        renderExpPart adj)) =
      [digitChar d0] ++ ('.' :: (renderDigits rest ++ renderExpPart adj))
        from rfl]
    apply spanDigits_exact
    · intro c hc
      rw [List.mem_singleton.mp hc]
      exact isDigit_digitChar hd0
    · intro c hc
      simp at hc
      subst hc
      rfl
  have hspan2 : spanDigits (renderDigits rest ++ renderExpPart adj) =
      (renderDigits rest, renderExpPart adj) :=
    spanDigits_exact hrest_all hEhead
  rw [parseMantissaExp]
  simp only [hspan1, hspan2]
  rw [if_neg (by simp)]
  rw [mkParsedDec_eval (parseExpPart_renderExpPart adj)]
  rw [show ([digitChar d0] ++ renderDigits rest).map digitVal =
      d0 :: rest from by
    rw [List.map_append]
    rw [show List.map digitVal [digitChar d0] = [d0] from by
      simp [digitVal_digitChar hd0]]
    rw [map_digitVal_renderDigits fun x hx =>
      hlt x (List.mem_cons_of_mem d0 hx)]
    rfl,
    stripLeadingZeros_of_WF ⟨hne, hlt, hz⟩]
  simp [length_renderDigits]

/-- The unsigned rendering of any decimal with canonical digits parses back
to the same digit tuple and exponent (under either sign), and always starts
with a digit character. -/
theorem strDecBody_spec (d : PyDecimal) (h : DigitsWF d.digits) :
    (∀ sg, parseMantissaExp sg (strDecBody d) =
      some ⟨sg, d.digits, d.exponent⟩) ∧
    ∃ c t, strDecBody d = c :: t ∧ c.isDigit = true := by
  obtain ⟨sign, ds, ex⟩ := d
  obtain ⟨hne, hlt, hz⟩ := h
  have hwf : DigitsWF ds := ⟨hne, hlt, hz⟩
  show (∀ sg, parseMantissaExp sg (strDecBody ⟨sign, ds, ex⟩) =
      some ⟨sg, ds, ex⟩) ∧ _
  by_cases h1 : ex ≤ 0 ∧ -6 ≤ ex + (ds.length : Int) - 1
  · by_cases h2 : ex = 0
    · have hbody : strDecBody ⟨sign, ds, ex⟩ = renderDigits ds := by
        simp only [strDecBody]
        rw [if_pos h1, if_pos h2]
      refine ⟨fun sg => ?_, ?_⟩
      · rw [hbody, parseMantissaExp_plain_zero hwf sg, h2]
      · cases ds with
        | nil => exact absurd rfl hne
        | cons a t =>
          exact ⟨digitChar a, renderDigits t, by rw [hbody]; rfl,
            isDigit_digitChar (hlt a (List.mem_cons_self a t))⟩
    · by_cases h3 : (ds.length : Int) ≤ -ex
      · have hbody : strDecBody ⟨sign, ds, ex⟩ =
            '0' :: '.' :: (List.replicate (-ex - ds.length).toNat '0' ++
              renderDigits ds) := by
          simp only [strDecBody]
          rw [if_pos h1, if_neg h2, if_pos h3]
        refine ⟨fun sg => ?_, ⟨'0', _, by rw [hbody], rfl⟩⟩
        rw [hbody, parseMantissaExp_plain_small hwf _ sg]
        simp only [Option.some.injEq, PyDecimal.mk.injEq, true_and]
        omega
      · have hm : 1 ≤ ds.length - (-ex).toNat := by omega
        have hbody : strDecBody ⟨sign, ds, ex⟩ =
            renderDigits (ds.take (ds.length - (-ex).toNat)) ++
              '.' :: renderDigits (ds.drop (ds.length - (-ex).toNat)) := by
          simp only [strDecBody]
          rw [if_pos h1, if_neg h2, if_neg h3]
        refine ⟨fun sg => ?_, ?_⟩
        · rw [hbody, parseMantissaExp_plain_split hwf hm sg]
          simp only [Option.some.injEq, PyDecimal.mk.injEq, true_and]
          omega
        · obtain ⟨m', hm'⟩ : ∃ m', ds.length - (-ex).toNat = m' + 1 :=
            ⟨ds.length - (-ex).toNat - 1, by omega⟩
          cases ds with
          | nil => exact absurd rfl hne
          | cons a t =>
            refine ⟨digitChar a,
              renderDigits (t.take m') ++
                '.' :: renderDigits ((a :: t).drop ((a :: t).length -
                  (-ex).toNat)), ?_,
              isDigit_digitChar (hlt a (List.mem_cons_self a t))⟩
            rw [hbody, hm', List.take_succ_cons]
            rfl
  · cases ds with
    | nil => exact absurd rfl hne
    | cons d0 rest =>
      have hd0 : d0 < 10 := hlt d0 (List.mem_cons_self d0 rest)
      cases rest with
      | nil =>
        have hbody : strDecBody ⟨sign, [d0], ex⟩ =
            digitChar d0 :: 'E' ::
              (if ex + ((1 : Nat) : Int) - 1 < 0 then '-' else '+') ::
                renderDigits (natDigits (ex + ((1 : Nat) : Int) -
                  1).natAbs) := by
          simp only [strDecBody]
          rw [if_neg (by simpa using h1)]
          simp [renderExpPart]
        refine ⟨fun sg => ?_, ⟨digitChar d0, _, by rw [hbody],
          isDigit_digitChar hd0⟩⟩
        rw [hbody, parseMantissaExp_sci_single hd0 _ sg]
        simp only [Option.some.injEq, PyDecimal.mk.injEq, true_and]
        omega
      | cons r1 rs =>
        have hbody : strDecBody ⟨sign, d0 :: r1 :: rs, ex⟩ =
            digitChar d0 :: '.' :: (renderDigits (r1 :: rs) ++
              renderExpPart (ex + (((r1 :: rs).length + 1 : Nat) : Int) -
                1)) := by
          simp only [strDecBody]
          rw [if_neg (by simpa using h1)]
          simp
        refine ⟨fun sg => ?_, ⟨digitChar d0, _, by rw [hbody],
          isDigit_digitChar hd0⟩⟩
        rw [hbody, parseMantissaExp_sci_multi ⟨by simp, hlt, hz⟩ _ sg]
        simp only [Option.some.injEq, PyDecimal.mk.injEq, true_and]
        push_cast
        omega

/-- Re-serializing any decimal with canonical digits and re-parsing yields
the identical sign / digit-tuple / exponent. -/
theorem parseDec_strDec {d : PyDecimal} (h : DigitsWF d.digits) :
    parseDec (strDec d) = some d := by
  obtain ⟨hparse, c, t, hct, hcd⟩ := strDecBody_spec d h
  obtain ⟨sg0, ds, ex⟩ := d
  cases sg0 with
  | false =>
    rw [show strDec ⟨false, ds, ex⟩ = strDecBody ⟨false, ds, ex⟩ from rfl,
      hct, parseDec]
    simp only [splitSignChars_of_digit hcd]
    rw [← hct]
    exact hparse false
  | true =>
    rw [show strDec ⟨true, ds, ex⟩ = '-' :: strDecBody ⟨true, ds, ex⟩
      from rfl, parseDec]
    simp only [splitSignChars, reduceIte]
    exact hparse true

theorem mkParsedDec_digitsWF {sg : Bool} {ip fp tl : List Char}
    {d : PyDecimal} (hip : ∀ c ∈ ip, c.isDigit = true)
    (hfp : ∀ c ∈ fp, c.isDigit = true)
    (h : mkParsedDec sg ip fp tl = some d) : DigitsWF d.digits := by
  rw [mkParsedDec] at h
  cases hpe : parseExpPart tl with
  | none => rw [hpe] at h; cases h
  | some e =>
    rw [hpe] at h
    rw [← Option.some.inj h]
    apply stripLeadingZeros_WF
    intro x hx
    obtain ⟨c, hc, rfl⟩ := List.mem_map.mp hx
    rcases List.mem_append.mp hc with h' | h'
    · exact digitVal_lt_ten (hip c h')
    · exact digitVal_lt_ten (hfp c h')

theorem parseMantissaExp_digitsWF {sg : Bool} {cs1 : List Char}
    {d : PyDecimal} (h : parseMantissaExp sg cs1 = some d) :
    DigitsWF d.digits := by
  rw [parseMantissaExp] at h
  simp only [spanDigits] at h
  have hip : ∀ c ∈ cs1.takeWhile Char.isDigit, c.isDigit = true :=
    fun c hc => List.mem_takeWhile_imp hc
  split at h
  · rename_i rest heq
    split at h
    · cases h
    · exact mkParsedDec_digitsWF hip
        (fun c hc => List.mem_takeWhile_imp hc) h
  · split at h
    · cases h
    · exact mkParsedDec_digitsWF hip (fun c hc => absurd hc
        (List.not_mem_nil c)) h

theorem parseDec_digitsWF {s : List Char} {d : PyDecimal}
    (h : parseDec s = some d) : DigitsWF d.digits := by
  rw [parseDec] at h
  rcases hsp : splitSignChars s with ⟨sg, cs1⟩
  rw [hsp] at h
  exact parseMantissaExp_digitsWF h

/-- The exact-text round trip claimed by the spec fails: the realistic wire
field `"0.00000001"` (one satoshi) parses to coefficient 1, exponent -8,
whose adjusted exponent -8 < -6 makes `Decimal.__str__` re-render it in
scientific notation as `"1E-8"`, not the original text. -/
theorem decimal_roundtrip_cex :
    (parseDecS "0.00000001").map strDecS = some "1E-8" ∧
    ("1E-8" : String) ≠ "0.00000001" :=
  ⟨rfl, by decide⟩

/-- C9 (amended): parsing decimal wire text never loses information — the
sign, every significant digit including trailing zeros, and the exponent are
preserved exactly (no binary-float intermediate exists in the conversion),
and re-serializing then re-parsing reproduces the identical decimal tuple;
the rendered text itself is reproduced verbatim for fields that render in
plain notation (e.g. `"0.00010000"`), but may lawfully switch to scientific
notation when the adjusted exponent leaves `[-6, 0]`. -/
theorem decimal_roundtrip (s : List Char) (d : PyDecimal)
    (h : parseDec s = some d) :
    parseDec (strDec d) = some d ∧
    (parseDecS "0.00010000").map strDecS = some "0.00010000" :=
  ⟨parseDec_strDec (parseDec_digitsWF h), rfl⟩

/-- Witness for C9 at the spec's own example `"0.00010000"`. -/
theorem decimal_roundtrip_witness :
    parseDec ("0.00010000".data) =
      some ⟨false, [1, 0, 0, 0, 0], -8⟩ ∧
    parseDec (strDec ⟨false, [1, 0, 0, 0, 0], -8⟩) =
      some ⟨false, [1, 0, 0, 0, 0], -8⟩ := by
  have h : parseDec ("0.00010000".data) =
      some ⟨false, [1, 0, 0, 0, 0], -8⟩ := by decide
  exact ⟨h, (decimal_roundtrip ("0.00010000".data) _ h).1⟩

end MarketData
